import Mathlib

/-!
Verification development for a change-impact analysis engine.

The program maps code diffs to affected API endpoints.  Its core pieces are:
an endpoint registry, a diff model, three dependency backends (an import
graph, a coverage tracer and a type-directed symbol tracer), a change mapper
that assigns confidence levels, and a JSON analysis cache.

This file gives a shallow embedding of those components and proves (or
refutes) the specification claims about them.  Python strings are embedded
as Lean `String` but manipulated through character-list helpers so that all
definitions reduce in the kernel; Python sets become `Finset`, dicts become
insertion-ordered association lists (Python dicts preserve insertion order),
and `Path.resolve()` — a filesystem operation — is abstracted as an explicit
resolution function `res : String → String` passed to the definitions that
use it.
-/

/-! ### String helpers (Python `str` operations over character lists) -/

/-- Split a character list on a separator character. -/
def chSplit (sep : Char) : List Char → List Char → List (List Char)
  | [], acc => [acc.reverse]
  | c :: rest, acc =>
    if c = sep then acc.reverse :: chSplit sep rest []
    else chSplit sep rest (c :: acc)

/-- Python `s.split(sep)` for a one-character separator. -/
def strSplit (s : String) (sep : Char) : List String :=
  (chSplit sep s.data []).map String.mk

/-- Python `s[n:]`. -/
def strDrop (s : String) (n : Nat) : String :=
  String.mk (s.data.drop n)

/-- Python `len(s)`. -/
def strLen (s : String) : Nat :=
  s.data.length

/-- Suffix test on character lists. -/
def chSuffix (s t : List Char) : Bool :=
  (s.drop (s.length - t.length) = t : Bool) && (t.length ≤ s.length : Bool)

/-- Python `s.endswith(t)`. -/
def strEndsWith (s t : String) : Bool :=
  chSuffix s.data t.data

/-- Python `s.startswith(t)`. -/
def strStartsWith (s t : String) : Bool :=
  s.data.take t.data.length = t.data

/-- Substring containment test, Python `t in s`. -/
def chInfix (t : List Char) : List Char → Bool
  | [] => t = ([] : List Char)
  | c :: rest => (List.take t.length (c :: rest) = t : Bool) || chInfix t rest

/-- Python `t in s` on strings. -/
def strContains (s t : String) : Bool :=
  chInfix t.data s.data

/-- Python `s.lstrip("./")`: strip leading dots and slashes. -/
def strLstripDotSlash (s : String) : String :=
  String.mk (s.data.dropWhile (fun c => c = '.' || c = '/'))

/-- Python `str.join` over a separator string. -/
def strJoin (sep : String) : List String → String
  | [] => ""
  | [x] => x
  | x :: rest => x ++ sep ++ strJoin sep rest

/-- Lexicographic order on character lists, used to model Python `sorted`. -/
def chLe : List Char → List Char → Bool
  | [], _ => true
  | _ :: _, [] => false
  | a :: as_, b :: bs =>
    if a = b then chLe as_ bs else (a.toNat ≤ b.toNat : Bool)

/-- String order backing `sorted` on method names. -/
def strLe (a b : String) : Bool :=
  chLe a.data b.data

/-- Insertion into a sorted list. -/
def sortInsert (x : String) : List String → List String
  | [] => [x]
  | y :: rest => if strLe x y then x :: y :: rest else y :: sortInsert x rest

/-- Python `sorted` on a list of strings (insertion sort; stable and ordered). -/
def strSorted : List String → List String
  | [] => []
  | x :: rest => sortInsert x (strSorted rest)

/-- Last path component, Python `Path(p).name` for slash-separated paths
without a trailing slash. -/
def pathName (p : String) : String :=
  (strSplit p '/').getLastD ""

/-- Ordered association-list lookup (Python `dict` access by key; insertion
order of the underlying list mirrors Python dict iteration order). -/
def lookupA {β : Type} : List (String × β) → String → Option β
  | [], _ => none
  | (k, v) :: rest, key => if k = key then some v else lookupA rest key

/-- Update the value stored at a key, appending a fresh entry at the end when
the key is absent — exactly how inserting into a Python dict behaves. -/
def updateA {β : Type} (init : β) (f : β → β) : List (String × β) → String → List (String × β)
  | [], key => [(key, f init)]
  | (k, v) :: rest, key =>
    if k = key then (k, f v) :: rest else (k, v) :: updateA init f rest key

/-! ### Data model of `mypy_analyzer.py` -/

/-- CallFrame: a single frame in the call stack. -/
structure CallFrame where
  file_path : String
  line_number : Nat
  function_name : String
  code_context : String
deriving DecidableEq

/-- SymbolReference: a reference to a symbol with its line range. -/
structure SymbolReference where
  file_path : String
  symbol_name : String
  start_line : Nat
  end_line : Nat
deriving DecidableEq

/-- Python `SymbolReference.contains_line`. -/
def SymbolReference.contains_line (r : SymbolReference) (line : Nat) : Bool :=
  (r.start_line ≤ line : Bool) && (line ≤ r.end_line : Bool)

/-- EndpointDependencies: per-endpoint dependency data discovered by the
type-directed tracer.  `referenced_files` is the Python
`dict[str, set[int]]`, `call_stacks` the `dict[str, list[CallFrame]]`. -/
structure EndpointDependencies where
  endpoint_id : String
  methods : List String
  path : String
  referenced_files : List (String × Finset Nat)
  referenced_symbols : List SymbolReference
  call_stacks : List (String × List CallFrame)
deriving DecidableEq

/-- Python `EndpointDependencies.add_reference` (the `symbol_name` argument
is accepted and ignored, as in the source). -/
def EndpointDependencies.add_reference (d : EndpointDependencies)
    (file_path : String) (line : Nat) (_symbol_name : String) : EndpointDependencies :=
  { d with referenced_files := updateA ∅ (insert line) d.referenced_files file_path }

/-- Python `EndpointDependencies.add_symbol_reference`: records the symbol
and adds its whole `range(start_line, end_line + 1)` to the file's line set. -/
def EndpointDependencies.add_symbol_reference (d : EndpointDependencies)
    (file_path symbol_name : String) (start_line end_line : Nat) : EndpointDependencies :=
  { d with
    referenced_symbols := d.referenced_symbols ++ [⟨file_path, symbol_name, start_line, end_line⟩]
    referenced_files :=
      updateA ∅ (· ∪ Finset.Icc start_line end_line) d.referenced_files file_path }

/-- File-matching predicate shared by `references_file`, `references_lines`
and `get_call_stack`: resolved paths equal, either raw path a suffix of the
other, or the two basenames equal.  `res` abstracts `Path(·).resolve()`. -/
def pathMatch (res : String → String) (ref_path file_path : String) : Bool :=
  (res ref_path = res file_path : Bool)
    || strEndsWith ref_path file_path
    || strEndsWith file_path ref_path
    || (pathName ref_path = pathName file_path : Bool)

/-- Python `EndpointDependencies.references_file`. -/
def EndpointDependencies.references_file (d : EndpointDependencies)
    (res : String → String) (file_path : String) : Bool :=
  d.referenced_files.any (fun rf => pathMatch res rf.1 file_path)

/-- Python `EndpointDependencies.references_lines`: the intersection of the
first matching recorded path's line set with the given lines (later matching
paths are never consulted, as in the source's early `return`). -/
def EndpointDependencies.references_lines (d : EndpointDependencies)
    (res : String → String) (file_path : String) (lines : Finset Nat) : Finset Nat :=
  go d.referenced_files
where
  go : List (String × Finset Nat) → Finset Nat
    | [] => ∅
    | (ref_path, ref_lines) :: rest =>
      if pathMatch res ref_path file_path then ref_lines ∩ lines else go rest

/-- Python `EndpointDependencies.get_call_stack`: call stack of the first
matching recorded path. -/
def EndpointDependencies.get_call_stack (d : EndpointDependencies)
    (res : String → String) (file_path : String) : List CallFrame :=
  go d.call_stacks
where
  go : List (String × List CallFrame) → List CallFrame
    | [] => []
    | (ref_path, stack) :: rest =>
      if pathMatch res ref_path file_path then stack else go rest

/-! ### Data model of `coverage_analyzer.py` -/

/-- EndpointCoverage: coverage data for a single endpoint. -/
structure EndpointCoverage where
  endpoint_id : String
  methods : List String
  path : String
  covered_files : List (String × Finset Nat)
deriving DecidableEq

/-- Python `EndpointCoverage.covers_file`: exact resolved-key hit, else
basename or suffix match against any covered path. -/
def EndpointCoverage.covers_file (c : EndpointCoverage)
    (res : String → String) (file_path : String) : Bool :=
  (lookupA c.covered_files (res file_path)).isSome
    || c.covered_files.any (fun cf =>
        (pathName cf.1 = pathName file_path : Bool) || strEndsWith cf.1 file_path)

/-- Python `EndpointCoverage.get_covered_lines`: lines of the resolved key if
present, else of the first basename/suffix match, else empty. -/
def EndpointCoverage.get_covered_lines (c : EndpointCoverage)
    (res : String → String) (file_path : String) : Finset Nat :=
  match lookupA c.covered_files (res file_path) with
  | some lines => lines
  | none => go c.covered_files
where
  go : List (String × Finset Nat) → Finset Nat
    | [] => ∅
    | (covered_path, lines) :: rest =>
      if (pathName covered_path = pathName file_path : Bool)
          || strEndsWith covered_path file_path then lines
      else go rest

/-! ### Data model of `models/diff.py` and `parser/diff_parser.py` -/

/-- ChangeType of a file in a diff. -/
inductive ChangeType where
  | added | modified | deleted | renamed
deriving DecidableEq

/-- DiffHunk: one hunk of a diff with its added/removed line numbers. -/
structure DiffHunk where
  source_start : Nat
  source_length : Nat
  target_start : Nat
  target_length : Nat
  added_lines : List Nat
  removed_lines : List Nat
deriving DecidableEq

/-- DiffFile: a single file in a diff. -/
structure DiffFile where
  path : String
  change_type : ChangeType
  hunks : List DiffHunk
deriving DecidableEq

/-- Python `DiffFile.is_python_file`: the path has suffix `.py`. -/
def DiffFile.is_python_file (f : DiffFile) : Bool :=
  strEndsWith f.path ".py"

/-- Python `DiffParser.get_changed_line_numbers`: concatenates the hunks'
added and removed line lists. -/
def get_changed_line_numbers (f : DiffFile) : List Nat × List Nat :=
  (f.hunks.flatMap (·.added_lines), f.hunks.flatMap (·.removed_lines))

/-- Python `DiffParser.get_python_files`. -/
def get_python_files (fs : List DiffFile) : List DiffFile :=
  fs.filter (·.is_python_file)

/-! ### Data model of `models/endpoint.py` and `endpoint_registry.py` -/

/-- HandlerInfo: location of an endpoint's handler function.  `module` and
`file_path` are strings; a missing end line is `none`. -/
structure HandlerInfo where
  name : String
  module : String
  file_path : String
  line_number : Nat
  end_line_number : Option Nat
deriving DecidableEq

/-- Endpoint: a FastAPI endpoint.  `methods` holds the HTTP verb strings
(`m.value` in the source). -/
structure Endpoint where
  path : String
  methods : List String
  handler : HandlerInfo
deriving DecidableEq

/-- Python `Endpoint.identifier`: sorted methods joined by commas, a space,
then the route path. -/
def Endpoint.identifier (e : Endpoint) : String :=
  strJoin "," (strSorted e.methods) ++ " " ++ e.path

/-- EndpointRegistry: endpoints plus the by-file index built by `register`. -/
structure EndpointRegistry where
  endpoints : List Endpoint
  by_file : List (String × List Endpoint)
deriving DecidableEq

/-- Python `EndpointRegistry.register`: append the endpoint and index it
under its handler's file path. -/
def EndpointRegistry.register (reg : EndpointRegistry) (e : Endpoint) : EndpointRegistry :=
  { endpoints := reg.endpoints ++ [e]
    by_file := updateA [] (· ++ [e]) reg.by_file e.handler.file_path }

/-- Python `EndpointRegistry.register_many`. -/
def EndpointRegistry.register_many (reg : EndpointRegistry) (es : List Endpoint) : EndpointRegistry :=
  es.foldl EndpointRegistry.register reg

/-- Python `EndpointRegistry.get_by_file`: resolved lookup first (the
`try/except OSError` around `resolve` is modelled by the total `res`), then
the exact key, then the first registered path that has the requested path as
a suffix (raw or after `lstrip("./")`), or the same basename with the
requested path as a substring. -/
def EndpointRegistry.get_by_file (reg : EndpointRegistry)
    (res : String → String) (file_path : String) : List Endpoint :=
  match lookupA reg.by_file (res file_path) with
  | some eps => eps
  | none =>
    match lookupA reg.by_file file_path with
    | some eps => eps
    | none => go reg.by_file
where
  go : List (String × List Endpoint) → List Endpoint
    | [] => []
    | (registered, eps) :: rest =>
      if strEndsWith registered file_path
          || strEndsWith registered (strLstripDotSlash file_path) then eps
      else if (pathName file_path = pathName registered : Bool)
          && strContains registered file_path then eps
      else go rest

/-! ### Data model of `models/report.py` -/

/-- ConfidenceLevel of a finding. -/
inductive ConfidenceLevel where
  | high | medium | low
deriving DecidableEq

/-- CallStackFrame of a report (mirrors the tracer's CallFrame fields). -/
structure CallStackFrame where
  file_path : String
  line_number : Nat
  function_name : String
  code_context : String
deriving DecidableEq

/-- AffectedEndpoint: one finding of the analysis. -/
structure AffectedEndpoint where
  endpoint : Endpoint
  confidence : ConfidenceLevel
  reason : String
  dependency_chain : List String
  changed_files : List String
  call_stack : List CallStackFrame
deriving DecidableEq

/-- AnalysisReport: the aggregate result of `analyze_diff` (timing and path
echo fields are omitted; they carry no analysed content). -/
structure AnalysisReport where
  total_endpoints : Nat
  affected_endpoints : List AffectedEndpoint
  total_files_changed : Nat
  python_files_changed : Nat
  errors : List String
  warnings : List String
deriving DecidableEq

/-! ### Embedding of `dependency_graph.py`

The grimp-built structure is the per-module direct-imports map; graph
construction itself shells out to grimp and the filesystem, so the built map
is the model's input.  Python set values are embedded as lists (a set's
iteration order is unspecified; membership is what matters), and
`file_path_to_module`, which consults the filesystem, is abstracted as a
given mapping. -/

/-- DependencyGraph: the import map built by `build`, plus the
filesystem-dependent `file_path_to_module` as an abstract mapping. -/
structure DependencyGraph where
  import_map : List (String × List String)
  file_to_module : String → Option String

/-- Python `self._import_map.get(module, set())`. -/
def DependencyGraph.importsOf (g : DependencyGraph) (m : String) : List String :=
  (lookupA g.import_map m).getD []

/-- Python `DependencyGraph.get_modules_imported_by`. -/
def DependencyGraph.get_modules_imported_by (g : DependencyGraph) (m : String) : List String :=
  g.importsOf m

/-- Every module name mentioned by the import map (keys and targets); the
worklists below only ever hold such names, which bounds their fuel. -/
def DependencyGraph.nodeUniv (g : DependencyGraph) : Finset String :=
  g.import_map.foldr (fun kv acc => insert kv.1 (kv.2.toFinset ∪ acc)) ∅

/-- Worklist loop of `get_upstream_modules`: pop, skip if visited, else mark
visited and push the unvisited direct imports.  The Python list's stack top
is the head here. -/
def upstreamAux (g : DependencyGraph) : Nat → List String → Finset String → Finset String
  | 0, _, visited => visited
  | _ + 1, [], visited => visited
  | fuel + 1, current :: rest, visited =>
    if current ∈ visited then upstreamAux g fuel rest visited
    else
      upstreamAux g fuel
        ((g.importsOf current).filter (fun x => x ∉ insert current visited) ++ rest)
        (insert current visited)

/-- Python `DependencyGraph.get_upstream_modules`: transitive imports of a
module; the fuel covers the worklist's worst case. -/
def DependencyGraph.get_upstream_modules (g : DependencyGraph) (m : String) : Finset String :=
  upstreamAux g
    (((g.importsOf m).length + g.nodeUniv.card + 1) * (g.nodeUniv.card + 2))
    (g.importsOf m) ∅

/-- Neighbour loop of the BFS in `get_shortest_path`: return the extended
path on hitting the target, else enqueue unvisited neighbours. -/
def bfsNbrs (to_module : String) (path : List String) :
    List String → Finset String → List (List String) →
    Option (List String) × Finset String × List (List String)
  | [], visited, adds => (none, visited, adds)
  | nb :: rest, visited, adds =>
    if nb = to_module then (some (path ++ [nb]), visited, adds)
    else if nb ∈ visited then bfsNbrs to_module path rest visited adds
    else bfsNbrs to_module path rest (insert nb visited) (adds ++ [path ++ [nb]])

/-- Queue loop of the BFS in `get_shortest_path`. -/
def bfsAux (g : DependencyGraph) (to_module : String) :
    Nat → List (List String) → Finset String → Option (List String)
  | 0, _, _ => none
  | _ + 1, [], _ => none
  | fuel + 1, path :: queue, visited =>
    match bfsNbrs to_module path (g.importsOf (path.getLastD "")) visited [] with
    | (some found, _, _) => some found
    | (none, visited', adds) => bfsAux g to_module fuel (queue ++ adds) visited'

/-- Python `DependencyGraph.get_shortest_path` (BFS, first-found path);
`none` models Python's `None`.  Each BFS iteration either consumes a queue
entry or freshly visits a universe node, so `card + 2` fuel is enough. -/
def DependencyGraph.get_shortest_path (g : DependencyGraph)
    (from_module to_module : String) : Option (List String) :=
  if from_module = to_module then some [from_module]
  else bfsAux g to_module (g.nodeUniv.card + 2) [[from_module]] {from_module}

/-- Edge reachability through the import map (one or more `imports` edges);
the specification's "transitively-imports" relation. -/
inductive Reaches (g : DependencyGraph) : String → String → Prop
  | base {a b : String} : b ∈ g.importsOf a → Reaches g a b
  | step {a b c : String} : b ∈ g.importsOf a → Reaches g b c → Reaches g a c

/-- Reachability whose intermediate hops are all outside a given visited set;
the completeness invariant of the BFS in `get_shortest_path`. -/
inductive NReach (g : DependencyGraph) (visited : Finset String) : String → String → Prop
  | base {a b : String} : b ∈ g.importsOf a → NReach g visited a b
  | step {a b c : String} : b ∈ g.importsOf a → b ∉ visited → NReach g visited b c →
      NReach g visited a c

/-! ### Embedding of the `mypy_analyzer.py` tracer

The tracer walks mypy's typed AST.  The embedding keeps the four node shapes
the walker distinguishes — call expressions, member accesses, name
references, and every other statement/expression kind, which the walker
treats uniformly as "walk each child in order" (`Block`, `ExpressionStmt`,
`IfStmt`, operators, comprehensions, …), here a single `compound` node.  The
types-map lookup `types_map.get(callee.expr)` is carried on the member node
as `recvType`: the receiver's inferred class fullname when mypy knows an
`Instance` type, else `none`.  A mypy `fullname` is an empty string when
unresolved (Python truthiness), hence the `≠ ""` guards.

Recursion depth is paid for by a fuel argument (one unit per recursive
call); the stabilisation theorem for claim C2 shows a computable fuel bound
past which the result no longer changes, which is the termination guarantee
of the Python recursion. -/

/-- Mypy AST expression shapes as distinguished by `_trace_references`. -/
inductive MExpr where
  | call (callee : MExpr) (args : List MExpr) (line : Nat)
  | memberRef (fullname : String) (name : String) (recvType : Option String)
      (line : Nat) (base : MExpr)
  | nameRef (fullname : String) (line : Nat)
  | compound (children : List MExpr)

/-- FuncDef: a function definition with its body statements; `end_line` is
`none` when mypy reports no end line. -/
structure FuncDef where
  name : String
  line : Nat
  end_line : Option Nat
  body : List MExpr

/-- Top-level definition of a module tree: a function (also standing for a
decorated function's `.func`) or a class with its methods. -/
inductive TreeDef where
  | funcDef (f : FuncDef)
  | classDef (name : String) (methods : List FuncDef)

/-- ModTree: a module's mypy AST (its top-level definitions). -/
structure ModTree where
  defs : List TreeDef

/-- MypyProject: the analyzer state after `_ensure_mypy_built` —
module→path map, modules with a truthy build-graph path, module trees, and
the abstract path resolution. -/
structure MypyProject where
  mypy_available : Bool
  module_to_path : List (String × String)
  graph_paths : List (String × String)
  trees : List (String × ModTree)
  res : String → String

/-- Method search inside a class body, first match by name. -/
def findMethod (nm : String) : List FuncDef → Option FuncDef
  | [] => none
  | f :: rest => if f.name = nm then some f else findMethod nm rest

/-- Python `MypyAnalyzer._find_func_in_tree` (the overloaded-function branch
returns the first implementation, which this constructor set folds into
`funcDef`). -/
def find_func_in_tree : List TreeDef → String → Option FuncDef
  | [], _ => none
  | .funcDef f :: rest, nm =>
    if f.name = nm then some f else find_func_in_tree rest nm
  | .classDef _ methods :: rest, nm =>
    match findMethod nm methods with
    | some f => some f
    | none => find_func_in_tree rest nm

/-- Python `MypyAnalyzer._get_func_lines`: `end_line` or the `start + 50`
estimate when it is `None`. -/
def getFuncLines (f : FuncDef) : Nat × Nat :=
  (f.line, match f.end_line with | some e => e | none => f.line + 50)

/-- Python `x or d` on an optional line number (both `None` and `0` are
falsy). -/
def orTruthy : Option Nat → Nat → Nat
  | some e, d => if e = 0 then d else e
  | none, d => d

/-- Candidate module names tried by `_resolve_fullname_to_file`: the dotted
prefixes of the fullname, longest first. -/
def resolveCandidates (fullname : String) : List String :=
  let parts := strSplit fullname '.'
  (List.range parts.length).reverse.map (fun i => strJoin "." (parts.take (i + 1)))

/-- Python `MypyAnalyzer._resolve_fullname_to_file`. -/
def resolve_fullname_to_file (proj : MypyProject) (fullname : String) :
    Option (String × String) :=
  go (resolveCandidates fullname)
where
  go : List String → Option (String × String)
    | [] => none
    | c :: rest =>
      match lookupA proj.module_to_path c with
      | some p => some (p, c)
      | none =>
        if (lookupA proj.trees c).isSome then
          match lookupA proj.graph_paths c with
          | some p => some (p, c)
          | none => go rest
        else go rest

/-- TraceState: the mutable state threaded through `_trace_references` — the
dependencies being accumulated and the per-trace visited set. -/
structure TraceState where
  deps : EndpointDependencies
  visited : Finset String
deriving DecidableEq

/-- Conditional call-stack recording: `if target_path not in deps.call_stacks`. -/
def addCallStackIfAbsent (d : EndpointDependencies) (fp : String)
    (stack : List CallFrame) : EndpointDependencies :=
  if (lookupA d.call_stacks fp).isSome then d
  else { d with call_stacks := d.call_stacks ++ [(fp, stack)] }

mutual

/-- Python `resolve_and_trace` (closure inside `_trace_references`): cycle
guard on the visited set, resolution of the fullname to a project file,
symbol-reference recording, and recursion into the target function's body.
The line-progress callback is I/O and is not modelled. -/
def resolve_and_trace (proj : MypyProject) (fuel : Nat) (fullname : String)
    (_call_line : Nat) (call_stack : List CallFrame) (st : TraceState) : TraceState :=
  if fullname ∈ st.visited then st
  else
    let st1 : TraceState := ⟨st.deps, insert fullname st.visited⟩
    match resolve_fullname_to_file proj fullname with
    | none => st1
    | some (target_path, target_module) =>
      match lookupA proj.trees target_module with
      | none => st1
      | some target_tree =>
        let parts := strSplit fullname '.'
        let symbol_name :=
          if strStartsWith fullname target_module then
            (if strLen target_module < strLen fullname then
              strDrop fullname (strLen target_module + 1)
            else "")
          else parts.getLastD ""
        let func_name :=
          if symbol_name ≠ "" then (strSplit symbol_name '.').getLastD ""
          else parts.getLastD ""
        match find_func_in_tree target_tree.defs func_name with
        | some target_func =>
          let se := getFuncLines target_func
          let deps1 := st1.deps.add_symbol_reference target_path fullname se.1 se.2
          let deps2 := addCallStackIfAbsent deps1 target_path call_stack
          let new_stack := call_stack ++ [⟨target_path, se.1, fullname, ""⟩]
          match fuel with
          | 0 => ⟨deps2, st1.visited⟩
          | f + 1 => walkList proj f target_path new_stack target_func.body ⟨deps2, st1.visited⟩
        | none =>
          let deps1 := st1.deps.add_symbol_reference target_path fullname 1 20
          let deps2 := addCallStackIfAbsent deps1 target_path call_stack
          ⟨deps2, st1.visited⟩

/-- Python `walk_node` with `handle_call_expr` inlined in the call branch:
resolve the callee (direct name, mypy-resolved member, type-directed member,
or module/class-alias member), then walk the callee and the arguments. -/
def walkNode (proj : MypyProject) (fuel : Nat) (cf : String)
    (cs : List CallFrame) (n : MExpr) (st : TraceState) : TraceState :=
  match fuel with
  | 0 => st
  | f + 1 =>
    match n with
    | .call callee args line =>
      let st1 :=
        match callee with
        | .nameRef fullname _ =>
          if fullname ≠ "" then
            resolve_and_trace proj f fullname line cs
              ⟨st.deps.add_reference cf line fullname, st.visited⟩
          else st
        | .memberRef fullname nm recvType _ base =>
          if fullname ≠ "" then
            resolve_and_trace proj f fullname line cs
              ⟨st.deps.add_reference cf line fullname, st.visited⟩
          else
            match recvType with
            | some cls =>
              let method_fullname := cls ++ "." ++ nm
              resolve_and_trace proj f method_fullname line cs
                ⟨st.deps.add_reference cf line method_fullname, st.visited⟩
            | none =>
              match base with
              | .nameRef bfn _ =>
                if bfn ≠ "" then
                  let combined := bfn ++ "." ++ nm
                  resolve_and_trace proj f combined line cs
                    ⟨st.deps.add_reference cf line combined, st.visited⟩
                else st
              | _ => st
        | _ => st
      let st2 := walkNode proj f cf cs callee st1
      walkList proj f cf cs args st2
    | .memberRef fullname _ _ line base =>
      let st1 : TraceState :=
        if fullname ≠ "" then ⟨st.deps.add_reference cf line fullname, st.visited⟩ else st
      walkNode proj f cf cs base st1
    | .nameRef fullname line =>
      if fullname ≠ "" then ⟨st.deps.add_reference cf line fullname, st.visited⟩ else st
    | .compound children => walkList proj f cf cs children st

/-- Sequential walk of a statement/expression list (a `Block` body, call
arguments, …), threading the trace state left to right. -/
def walkList (proj : MypyProject) (fuel : Nat) (cf : String)
    (cs : List CallFrame) (ns : List MExpr) (st : TraceState) : TraceState :=
  match fuel with
  | 0 => st
  | f + 1 =>
    match ns with
    | [] => st
    | n :: rest => walkList proj f cf cs rest (walkNode proj f cf cs n st)

end

/-- Handler-module search in `analyze_endpoint`: the first module whose
resolved path equals the resolved handler path. -/
def findHandlerModule (proj : MypyProject) (handler_path : String) : Option String :=
  go proj.module_to_path
where
  go : List (String × String) → Option String
    | [] => none
    | (m, p) :: rest =>
      if proj.res p = proj.res handler_path then some m else go rest

/-- Python `MypyAnalyzer.analyze_endpoint` at a given recursion fuel: the
fallback branches record only the raw handler location; the main branch
records the handler's own range and traces its body. -/
def analyze_endpoint_fuel (proj : MypyProject) (ep : Endpoint) (fuel : Nat) :
    EndpointDependencies :=
  let deps0 : EndpointDependencies :=
    ⟨ep.identifier, ep.methods, ep.path, [], [], []⟩
  let handler := ep.handler
  if handler.file_path = "" then deps0
  else if ¬ proj.mypy_available then deps0
  else
    let handler_path := proj.res handler.file_path
    let fallback := deps0.add_symbol_reference handler_path handler.name
      handler.line_number (orTruthy handler.end_line_number (handler.line_number + 50))
    match findHandlerModule proj handler_path with
    | none => fallback
    | some handler_module =>
      match lookupA proj.trees handler_module with
      | none => fallback
      | some tree =>
        match find_func_in_tree tree.defs handler.name with
        | none => fallback
        | some func =>
          let se := getFuncLines func
          let deps1 := deps0.add_symbol_reference handler_path handler.name se.1 se.2
          let call_stack : List CallFrame := [⟨handler_path, se.1, handler.name, ""⟩]
          (walkList proj fuel handler_path call_stack func.body ⟨deps1, ∅⟩).deps

mutual

/-- Every fullname this node's calls can hand to `resolve_and_trace`,
including the constructed `class.method` and `alias.member` names. -/
def callNames : MExpr → Finset String
  | .call callee args _ =>
    (match callee with
      | .nameRef fullname _ => if fullname ≠ "" then {fullname} else ∅
      | .memberRef fullname nm recvType _ base =>
        if fullname ≠ "" then {fullname}
        else
          match recvType with
          | some cls => {cls ++ "." ++ nm}
          | none =>
            match base with
            | .nameRef bfn _ => if bfn ≠ "" then {bfn ++ "." ++ nm} else ∅
            | _ => ∅
      | _ => ∅) ∪ callNames callee ∪ callNamesList args
  | .memberRef _ _ _ _ base => callNames base
  | .nameRef _ _ => ∅
  | .compound children => callNamesList children

/-- Union of `callNames` over a node list. -/
def callNamesList : List MExpr → Finset String
  | [] => ∅
  | n :: rest => callNames n ∪ callNamesList rest

end

/-- All function definitions of a module tree (top level and methods). -/
def treeFuncs (t : ModTree) : List FuncDef :=
  t.defs.flatMap (fun td =>
    match td with
    | .funcDef f => [f]
    | .classDef _ methods => methods)

/-- All function definitions across the project's trees. -/
def projFuncs (proj : MypyProject) : List FuncDef :=
  proj.trees.flatMap (fun mt => treeFuncs mt.2)

/-- Universe of fullnames the tracer can ever visit while descending into
project functions. -/
def projUniv (proj : MypyProject) : Finset String :=
  (projFuncs proj).foldr (fun f acc => callNamesList f.body ∪ acc) ∅

mutual

/-- Structural size of an expression node, used to bound the walk. -/
def mexprSize : MExpr → Nat
  | .call callee args _ => 1 + mexprSize callee + mexprListSize args
  | .memberRef _ _ _ _ base => 1 + mexprSize base
  | .nameRef _ _ => 1
  | .compound children => 1 + mexprListSize children

/-- Structural size of a node list. -/
def mexprListSize : List MExpr → Nat
  | [] => 1
  | n :: rest => 1 + mexprSize n + mexprListSize rest

end

/-- Combined size of all project function bodies, an upper bound for the
structural part of the recursion. -/
def treesSize (proj : MypyProject) : Nat :=
  (projFuncs proj).foldr (fun f acc => mexprListSize f.body + acc) 0

/-- Fuel past which the trace of any project function body has stabilised:
every descent consumes a fresh element of `projUniv`, and between descents
the walk is structural in a body of size at most `treesSize`. -/
def traceFuel (proj : MypyProject) : Nat :=
  (projUniv proj).card * (treesSize proj + 1) + treesSize proj + 1

/-- Python `MypyAnalyzer.analyze_endpoint`: the fuel-free function, taken at
the stabilised fuel. -/
def analyze_endpoint (proj : MypyProject) (ep : Endpoint) : EndpointDependencies :=
  analyze_endpoint_fuel proj ep (traceFuel proj)

/-! ### Embedding of `change_mapper.py` and the analysis cache -/

/-- Ascending enumeration of a finite set of naturals (Python `sorted(s)`,
and the model's enumeration order for iterating a Python `set[int]`). -/
def finsetAsc (s : Finset Nat) : List Nat :=
  (List.range (s.fold max 0 id + 1)).filter (fun x => decide (x ∈ s))

/-- Decimal digits of a natural number (auxiliary, fuel = the number). -/
def natToChars : Nat → Nat → List Char
  | 0, _ => []
  | fuel + 1, n =>
    if n < 10 then [Char.ofNat (48 + n)]
    else natToChars fuel (n / 10) ++ [Char.ofNat (48 + n % 10)]

/-- Decimal rendering of a natural number. -/
def natStr (n : Nat) : String :=
  String.mk (natToChars (n + 1) n)

/-- Python `f"{sorted(display_lines)[:5]}{'...' if len(display_lines) > 5 else ''}"`. -/
def displayLines (s : Finset Nat) : String :=
  "[" ++ strJoin ", " (((finsetAsc s).take 5).map natStr) ++ "]"
    ++ (if 5 < s.card then "..." else "")

/-- AnalysisConfig: the two configuration fields the mapper reads. -/
structure AnalysisConfig where
  track_transitive : Bool
  confidence_threshold : ℚ

/-- Backend selection, Python's `Literal["import", "coverage", "mypy"]`. -/
inductive BackendKind where
  | importGraph | coverage | mypy
deriving DecidableEq

/-- ChangeMapper state after lazy initialisation: registry, config, chosen
backend, built import graph, and the pre-analysed per-endpoint maps of the
coverage and mypy analyzers (`_endpoint_coverage` / `_endpoint_deps`). -/
structure ChangeMapper where
  registry : EndpointRegistry
  config : AnalysisConfig
  backend : BackendKind
  dep_graph : DependencyGraph
  coverage_data : List (String × EndpointCoverage)
  mypy_deps : List (String × EndpointDependencies)
  res : String → String

/-- Numeric confidence scale used by the threshold filter. -/
def confidence_order : ConfidenceLevel → ℚ
  | .high => 1
  | .medium => 7 / 10
  | .low => 3 / 10

/-- Python `endpoint.handler.module or "unknown"`. -/
def moduleOrUnknown (e : Endpoint) : String :=
  if e.handler.module = "" then "unknown" else e.handler.module

/-- Python `ChangeMapper._check_direct_handler_change`: HIGH finding when the
changed lines meet `[line_number, end_line_number or line_number + 50]`. -/
def check_direct_handler_change (endpoint : Endpoint) (diff_file : DiffFile)
    (added_lines removed_lines : List Nat) : Option AffectedEndpoint :=
  let handler := endpoint.handler
  let handler_end := orTruthy handler.end_line_number (handler.line_number + 50)
  let all_changed := added_lines.toFinset ∪ removed_lines.toFinset
  let handler_lines := Finset.Icc handler.line_number handler_end
  if (all_changed ∩ handler_lines).Nonempty then
    some
      { endpoint := endpoint
        confidence := .high
        reason := "Handler function directly modified in " ++ diff_file.path
        dependency_chain := [diff_file.path]
        changed_files := [diff_file.path]
        call_stack := [] }
  else none

/-- Python `modules_to_check`: the changed module followed by its parent
package prefixes, longest first. -/
def modulesToCheck (changed_module : String) : List String :=
  let parts := strSplit changed_module '.'
  changed_module ::
    ((List.range (parts.length - 1)).reverse.map (fun i => strJoin "." (parts.take (i + 1))))

/-- Python `ChangeMapper._check_module_dependency`: direct import → MEDIUM;
else, with transitive tracking on, upstream membership → LOW with the BFS
shortest path as the chain (falling back to `[handler, module]` when the
search yields nothing). -/
def check_module_dependency (m : ChangeMapper) (endpoint : Endpoint)
    (changed_module : String) (diff_file : DiffFile) : Option AffectedEndpoint :=
  let handler_module := endpoint.handler.module
  if handler_module = "" ∨ handler_module = changed_module then none
  else
    let mods := modulesToCheck changed_module
    let direct_imports := m.dep_graph.get_modules_imported_by handler_module
    match mods.find? (fun md => direct_imports.contains md) with
    | some md =>
      some
        { endpoint := endpoint
          confidence := .medium
          reason := "Handler imports " ++ md ++ " (changed: " ++ changed_module ++ ")"
          dependency_chain := [handler_module, md]
          changed_files := [diff_file.path]
          call_stack := [] }
    | none =>
      if m.config.track_transitive then
        let upstream := m.dep_graph.get_upstream_modules handler_module
        match mods.find? (fun md => decide (md ∈ upstream)) with
        | some md =>
          let chain := m.dep_graph.get_shortest_path handler_module md
          let chain_list :=
            match chain with
            | some [] => [handler_module, md]
            | some c => c
            | none => [handler_module, md]
          some
            { endpoint := endpoint
              confidence := .low
              reason := "Handler transitively depends on " ++ md
                ++ " (changed: " ++ changed_module ++ ")"
              dependency_chain := chain_list
              changed_files := [diff_file.path]
              call_stack := [] }
        | none => none
      else none

/-- Python `ChangeMapper._check_coverage_dependency`. -/
def check_coverage_dependency (m : ChangeMapper) (endpoint : Endpoint)
    (diff_file : DiffFile) (added_lines removed_lines : List Nat) :
    Option AffectedEndpoint :=
  match lookupA m.coverage_data endpoint.identifier with
  | none => none
  | some cov_data =>
    let file_path := diff_file.path
    if ¬ cov_data.covers_file m.res file_path then none
    else
      let changed_lines := added_lines.toFinset ∪ removed_lines.toFinset
      let context_lines := changed_lines.biUnion (fun l => Finset.Icc (max 1 (l - 3)) (l + 3))
      let covered_lines := cov_data.get_covered_lines m.res file_path
      let overlap := covered_lines ∩ (changed_lines ∪ context_lines)
      if overlap.Nonempty then
        let direct_overlap := covered_lines ∩ changed_lines
        let display := if direct_overlap.Nonempty then direct_overlap else overlap
        some
          { endpoint := endpoint
            confidence := .medium
            reason := "Coverage intersects with " ++ file_path
              ++ " (lines " ++ displayLines display ++ ")"
            dependency_chain := [moduleOrUnknown endpoint, file_path]
            changed_files := [file_path]
            call_stack := [] }
      else none

/-- Python `ChangeMapper._check_mypy_dependency`: file reference test, ±3
context expansion of the changed lines, first-matching-path line
intersection, and the recorded call stack on a hit. -/
def check_mypy_dependency (m : ChangeMapper) (endpoint : Endpoint)
    (diff_file : DiffFile) (added_lines removed_lines : List Nat) :
    Option AffectedEndpoint :=
  match lookupA m.mypy_deps endpoint.identifier with
  | none => none
  | some deps =>
    let file_path := diff_file.path
    if ¬ deps.references_file m.res file_path then none
    else
      let changed_lines := added_lines.toFinset ∪ removed_lines.toFinset
      let context_lines := changed_lines.biUnion (fun l => Finset.Icc (max 1 (l - 3)) (l + 3))
      let overlap := deps.references_lines m.res file_path (changed_lines ∪ context_lines)
      if overlap.Nonempty then
        let direct_overlap := deps.references_lines m.res file_path changed_lines
        let display := if direct_overlap.Nonempty then direct_overlap else overlap
        let call_stack := (deps.get_call_stack m.res file_path).map
          (fun fr => CallStackFrame.mk fr.file_path fr.line_number fr.function_name fr.code_context)
        some
          { endpoint := endpoint
            confidence := .medium
            reason := "Type analysis shows dependency on " ++ file_path
              ++ " (lines " ++ displayLines display ++ ")"
            dependency_chain := [moduleOrUnknown endpoint, file_path]
            changed_files := [file_path]
            call_stack := call_stack }
      else none

/-- Direct-handler phase of `_analyze_diff_file`: every endpoint declared in
the changed file whose handler range meets the changed lines produces a
finding and marks its identifier as seen. -/
def directPhase (diff_file : DiffFile) (added_lines removed_lines : List Nat) :
    List Endpoint → List AffectedEndpoint → Finset String →
    List AffectedEndpoint × Finset String
  | [], acc, seen => (acc, seen)
  | ep :: rest, acc, seen =>
    match check_direct_handler_change ep diff_file added_lines removed_lines with
    | some r =>
      directPhase diff_file added_lines removed_lines rest (acc ++ [r])
        (insert ep.identifier seen)
    | none => directPhase diff_file added_lines removed_lines rest acc seen

/-- Backend phase of `_analyze_diff_file`, common to all three backends:
skip endpoints already seen, otherwise run the backend check.  Besides the
Python state (findings, seen) the loop records which endpoints were actually
handed to the check — the instrumentation used to state that direct hits are
never re-evaluated. -/
def backendLoop (check : Endpoint → Option AffectedEndpoint) :
    List Endpoint → List AffectedEndpoint → Finset String → List String →
    List AffectedEndpoint × Finset String × List String
  | [], acc, seen, evaluated => (acc, seen, evaluated)
  | ep :: rest, acc, seen, evaluated =>
    if ep.identifier ∈ seen then backendLoop check rest acc seen evaluated
    else
      match check ep with
      | some r =>
        backendLoop check rest (acc ++ [r]) (insert ep.identifier seen)
          (evaluated ++ [ep.identifier])
      | none => backendLoop check rest acc seen (evaluated ++ [ep.identifier])

/-- Result of analysing one diff file: the findings in production order plus
the instrumentation of the backend phase. -/
structure FileAnalysis where
  findings : List AffectedEndpoint
  direct : List AffectedEndpoint
  seen : Finset String
  evaluated : List String
deriving DecidableEq

/-- Python `ChangeMapper._analyze_diff_file`: direct-handler phase over the
endpoints declared in the file, then the selected backend over the whole
registry.  For the `importGraph` backend a changed file outside the module
tree runs no backend loop; the grimp-exception fallback to coverage cannot
fire in the pure embedding and is not modelled. -/
def analyze_diff_file (m : ChangeMapper) (diff_file : DiffFile) : FileAnalysis :=
  let changed := get_changed_line_numbers diff_file
  let added_lines := changed.1
  let removed_lines := changed.2
  let file_endpoints := m.registry.get_by_file m.res diff_file.path
  let dp := directPhase diff_file added_lines removed_lines file_endpoints [] ∅
  let bl :=
    match m.backend with
    | .coverage =>
      backendLoop (fun ep => check_coverage_dependency m ep diff_file added_lines removed_lines)
        m.registry.endpoints dp.1 dp.2 []
    | .mypy =>
      backendLoop (fun ep => check_mypy_dependency m ep diff_file added_lines removed_lines)
        m.registry.endpoints dp.1 dp.2 []
    | .importGraph =>
      match m.dep_graph.file_to_module diff_file.path with
      | some changed_module =>
        if changed_module ≠ "" then
          backendLoop (fun ep => check_module_dependency m ep changed_module diff_file)
            m.registry.endpoints dp.1 dp.2 []
        else (dp.1, dp.2, [])
      | none => (dp.1, dp.2, [])
  { findings := bl.1, direct := dp.1, seen := bl.2.1, evaluated := bl.2.2 }

/-- Whole-diff deduplication by endpoint identifier: an endpoint keeps only
the first finding produced for it, in file order. -/
def dedupAffected : List AffectedEndpoint → Finset String → List AffectedEndpoint
  | [], _ => []
  | ae :: rest, seen =>
    if ae.endpoint.identifier ∈ seen then dedupAffected rest seen
    else ae :: dedupAffected rest (insert ae.endpoint.identifier seen)

/-- Python `ChangeMapper.analyze_diff`.  The diff-parsing outcome is the
`Except` argument (`DiffParser.parse_file` / `parse_string` raising is the
`error` case, caught and recorded); progress callbacks and timing are I/O
and are not modelled, and the per-file `try/except` cannot fire in the pure
embedding, so `warnings` stays empty. -/
def analyze_diff (m : ChangeMapper) (parse_result : Except String (List DiffFile)) :
    AnalysisReport :=
  let parsed :=
    match parse_result with
    | .ok fs => (fs, ([] : List String))
    | .error e => ([], ["Failed to parse diff: " ++ e])
  let diff_files := parsed.1
  let errors := parsed.2
  let python_files := get_python_files diff_files
  let all_affected :=
    dedupAffected (python_files.flatMap (fun f => (analyze_diff_file m f).findings)) ∅
  let threshold := m.config.confidence_threshold
  let filtered_affected :=
    all_affected.filter (fun ae => decide (threshold ≤ confidence_order ae.confidence))
  { total_endpoints := m.registry.endpoints.length
    affected_endpoints := filtered_affected
    total_files_changed := diff_files.length
    python_files_changed := python_files.length
    errors := errors
    warnings := [] }

/-! ### Embedding of the mypy analysis cache (`_save_cache` / `_load_cache`)

The JSON layer faithfully round-trips dicts, lists, strings and ints, so the
cache file is modelled by the structured data written to it; `list(lines)`
enumerates a Python `set[int]` in an unspecified order, modelled by the
ascending enumeration. -/

/-- One serialised cache record, the JSON object written per endpoint. -/
structure CacheEntry where
  methods : List String
  path : String
  referenced_files : List (String × List Nat)
  referenced_symbols : List SymbolReference
  call_stacks : List (String × List CallFrame)
deriving DecidableEq

/-- Python `MypyAnalyzer._save_cache`: serialise every entry of
`_endpoint_deps`, turning each line set into a list. -/
def save_cache (deps_map : List (String × EndpointDependencies)) :
    List (String × CacheEntry) :=
  deps_map.map (fun entry =>
    (entry.1,
      { methods := entry.2.methods
        path := entry.2.path
        referenced_files := entry.2.referenced_files.map (fun fl => (fl.1, finsetAsc fl.2))
        referenced_symbols := entry.2.referenced_symbols
        call_stacks := entry.2.call_stacks }))

/-- Python `MypyAnalyzer._load_cache`: rebuild `_endpoint_deps`, turning
each line list back into a set. -/
def load_cache (data : List (String × CacheEntry)) :
    List (String × EndpointDependencies) :=
  data.map (fun entry =>
    (entry.1,
      { endpoint_id := entry.1
        methods := entry.2.methods
        path := entry.2.path
        referenced_files := entry.2.referenced_files.map (fun fl => (fl.1, fl.2.toFinset))
        referenced_symbols := entry.2.referenced_symbols
        call_stacks := entry.2.call_stacks }))

/-! ### Derived notions used by the statements -/

/-- Line set recorded for a file in a dependency record (empty when the file
is absent). -/
def linesOf (d : EndpointDependencies) (fp : String) : Finset Nat :=
  (lookupA d.referenced_files fp).getD ∅

/-- Growth order on dependency records: symbol references are preserved and
per-file line sets only grow — tracing never removes anything. -/
def depsLe (d d' : EndpointDependencies) : Prop :=
  (∀ r ∈ d.referenced_symbols, r ∈ d'.referenced_symbols)
    ∧ ∀ fp, linesOf d fp ⊆ linesOf d' fp

mutual

/-- All line numbers carried by the nodes of an expression. -/
def mexprLines : MExpr → Finset Nat
  | .call callee args line => insert line (mexprLines callee ∪ mexprListLines args)
  | .memberRef _ _ _ line base => insert line (mexprLines base)
  | .nameRef _ line => {line}
  | .compound children => mexprListLines children

/-- All line numbers carried by a node list. -/
def mexprListLines : List MExpr → Finset Nat
  | [] => ∅
  | n :: rest => mexprLines n ∪ mexprListLines rest

end

/-- Ownership invariant of claim C4: every line recorded for a file belongs
to some recorded symbol reference of that same file. -/
def linesOwned (d : EndpointDependencies) : Prop :=
  ∀ p ∈ d.referenced_files, ∀ l ∈ p.2,
    ∃ r ∈ d.referenced_symbols,
      r.file_path = p.1 ∧ r.start_line ≤ l ∧ l ≤ r.end_line

/-- A function definition whose body's node lines all lie inside the
recorded `[start, end]` range computed by `_get_func_lines`. -/
def funcWF (f : FuncDef) : Prop :=
  ∀ l ∈ mexprListLines f.body, (getFuncLines f).1 ≤ l ∧ l ≤ (getFuncLines f).2

/-- Projects whose mypy trees are line-consistent: every function body lies
inside its recorded line range. -/
def projWF (proj : MypyProject) : Prop :=
  ∀ mt ∈ proj.trees, ∀ f ∈ treeFuncs mt.2, funcWF f

instance (d : EndpointDependencies) : Decidable (linesOwned d) := by
  unfold linesOwned; infer_instance

instance (f : FuncDef) : Decidable (funcWF f) := by
  unfold funcWF; infer_instance

instance (proj : MypyProject) : Decidable (projWF proj) := by
  unfold projWF; infer_instance

/-! ## Theorems -/

/-! ### Shared helper lemmas -/

theorem lookupA_eq_some_of_head {β : Type} (k : String) (v : β) (rest : List (String × β)) :
    lookupA ((k, v) :: rest) k = some v := by
  simp [lookupA]

theorem pathMatch_of_resolved (res : String → String) (rp fp : String)
    (h : res rp = res fp) : pathMatch res rp fp = true := by
  simp [pathMatch, h]

theorem pathMatch_of_ref_suffix (res : String → String) (rp fp : String)
    (h : strEndsWith rp fp = true) : pathMatch res rp fp = true := by
  simp [pathMatch, h]

theorem pathMatch_of_file_suffix (res : String → String) (rp fp : String)
    (h : strEndsWith fp rp = true) : pathMatch res rp fp = true := by
  simp [pathMatch, h]

theorem pathMatch_of_name (res : String → String) (rp fp : String)
    (h : pathName rp = pathName fp) : pathMatch res rp fp = true := by
  simp [pathMatch, h]

theorem references_lines_head_match (d : EndpointDependencies)
    (res : String → String) (fp : String) (lines : Finset Nat)
    (rp : String) (ls : Finset Nat) (rest : List (String × Finset Nat))
    (hfiles : d.referenced_files = (rp, ls) :: rest)
    (hmatch : pathMatch res rp fp = true) :
    d.references_lines res fp lines = ls ∩ lines := by
  simp [EndpointDependencies.references_lines, hfiles,
    EndpointDependencies.references_lines.go, hmatch]

/-- C10: the file-matching predicate shared by `references_file`,
`references_lines` and `get_call_stack` accepts a recorded path against a
changed path when the resolved paths are equal, when either raw path is a
suffix of the other, or when merely the basenames agree; consequently a
changed file matches a recorded file in a different directory sharing only
its filename, and `references_lines` returns the intersection taken from
the first matching recorded path only — not the union over all matching
paths. -/
theorem claim_C10 :
    (∀ (res : String → String) (rp fp : String),
      res rp = res fp → pathMatch res rp fp = true)
    ∧ (∀ (res : String → String) (rp fp : String),
      strEndsWith rp fp = true → pathMatch res rp fp = true)
    ∧ (∀ (res : String → String) (rp fp : String),
      strEndsWith fp rp = true → pathMatch res rp fp = true)
    ∧ (∀ (res : String → String) (rp fp : String),
      pathName rp = pathName fp → pathMatch res rp fp = true)
    ∧ (∀ (d : EndpointDependencies) (res : String → String) (fp : String)
        (lines : Finset Nat) (rp : String) (ls : Finset Nat)
        (rest : List (String × Finset Nat)),
      d.referenced_files = (rp, ls) :: rest → pathMatch res rp fp = true →
      d.references_lines res fp lines = ls ∩ lines)
    ∧ ((EndpointDependencies.mk "id" [] "/p"
        [("/a/x.py", {1}), ("/b/x.py", {2})] [] []).references_file id "/b/x.py" = true)
    ∧ ((EndpointDependencies.mk "id" [] "/p"
        [("/a/x.py", {1}), ("/b/x.py", {2})] [] []).references_lines id "/b/x.py" {1, 2}
        = {1}) := by
  refine ⟨pathMatch_of_resolved, pathMatch_of_ref_suffix, pathMatch_of_file_suffix,
    pathMatch_of_name, references_lines_head_match, ?_, ?_⟩
  · decide
  · decide

/-- C10 witness: the conditional parts of the claim applied at concrete
inputs — a recorded path `/a/x.py` in a different directory than the changed
`/b/x.py`, matching by basename alone, with the intersection coming from the
first matching entry. -/
theorem claim_C10_witness :
    pathMatch id "/a/x.py" "/b/x.py" = true
    ∧ (EndpointDependencies.mk "id" [] "/p"
        [("/a/x.py", {1}), ("/b/x.py", {2})] [] []).references_lines id "/b/x.py" {1, 2}
        = {1} ∩ {1, 2} := by
  constructor
  · exact claim_C10.2.2.2.1 id "/a/x.py" "/b/x.py" (by decide)
  · exact claim_C10.2.2.2.2.1 _ id "/b/x.py" {1, 2} "/a/x.py" {1}
      [("/b/x.py", {2})] rfl (by decide)

/-! ### C7: cache round trip -/

theorem toFinset_finsetAsc (s : Finset ℕ) : (finsetAsc s).toFinset = s := by
  ext x
  simp only [finsetAsc, List.mem_toFinset, List.mem_filter, List.mem_range,
    decide_eq_true_eq]
  constructor
  · rintro ⟨-, h⟩
    exact h
  · intro h
    refine ⟨Nat.lt_succ_of_le ?_, h⟩
    rw [Finset.le_fold_max]
    exact Or.inr ⟨x, h, le_refl x⟩

theorem referenced_files_roundtrip (l : List (String × Finset Nat)) :
    (l.map (fun fl => (fl.1, finsetAsc fl.2))).map (fun fl => (fl.1, fl.2.toFinset)) = l := by
  induction l with
  | nil => rfl
  | cons hd tl ih => simp [ih, toFinset_finsetAsc]

/-- C7: loading the cache written by `save` yields, for every endpoint
identifier present before the save, an entry whose `referenced_files`
mapping is equal to the original — the list/set encoding of the line sets
round-trips. -/
theorem claim_C7 (deps_map : List (String × EndpointDependencies))
    (eid : String) (d : EndpointDependencies)
    (h : lookupA deps_map eid = some d) :
    ∃ d', lookupA (load_cache (save_cache deps_map)) eid = some d'
      ∧ d'.referenced_files = d.referenced_files := by
  induction deps_map with
  | nil => simp [lookupA] at h
  | cons hd tl ih =>
    obtain ⟨k, v⟩ := hd
    by_cases hk : k = eid
    · subst hk
      have h' : v = d := by simpa [lookupA] using h
      subst h'
      refine ⟨⟨k, v.methods, v.path,
        (v.referenced_files.map (fun fl => (fl.1, finsetAsc fl.2))).map
          (fun fl => (fl.1, fl.2.toFinset)),
        v.referenced_symbols, v.call_stacks⟩, ?_, ?_⟩
      · simp [load_cache, save_cache, lookupA]
      · exact referenced_files_roundtrip _
    · simp only [lookupA, if_neg hk] at h
      obtain ⟨d', hd', hfiles⟩ := ih h
      refine ⟨d', ?_, hfiles⟩
      simpa [load_cache, save_cache, lookupA, hk] using hd'

/-- C7 witness: a concrete one-entry dependency map survives the save/load
round trip with its `referenced_files` intact. -/
theorem claim_C7_witness :
    ∃ d', lookupA (load_cache (save_cache
        [("GET /items", EndpointDependencies.mk "GET /items" ["GET"] "/items"
          [("/r/app.py", {3, 7})] [] [])])) "GET /items" = some d'
      ∧ d'.referenced_files
        = (EndpointDependencies.mk "GET /items" ["GET"] "/items"
            [("/r/app.py", {3, 7})] [] []).referenced_files :=
  claim_C7
    [("GET /items", EndpointDependencies.mk "GET /items" ["GET"] "/items"
      [("/r/app.py", {3, 7})] [] [])]
    "GET /items"
    (EndpointDependencies.mk "GET /items" ["GET"] "/items"
      [("/r/app.py", {3, 7})] [] [])
    (by decide)

/-! ### C6: context-window symmetry of the mypy backend -/

theorem references_file_head_match (d : EndpointDependencies)
    (res : String → String) (fp : String)
    (rp : String) (ls : Finset Nat) (rest : List (String × Finset Nat))
    (hfiles : d.referenced_files = (rp, ls) :: rest)
    (hmatch : pathMatch res rp fp = true) :
    d.references_file res fp = true := by
  simp [EndpointDependencies.references_file, hfiles, hmatch]

/-- C6: with the mypy backend, when the recorded line set for the changed
file (the first matching recorded entry) contains no changed line exactly, a
changed line `L` still produces a MEDIUM finding as soon as some recorded
line `r ≥ 1` satisfies `L - 3 ≤ r ≤ L + 3`; and when every recorded line is
at distance at least 4 from every changed line, no finding is produced. -/
theorem claim_C6 (m : ChangeMapper) (ep : Endpoint) (f : DiffFile)
    (added_lines removed_lines : List Nat) (deps : EndpointDependencies)
    (rp : String) (ls : Finset Nat) (rest : List (String × Finset Nat))
    (hdeps : lookupA m.mypy_deps ep.identifier = some deps)
    (hfiles : deps.referenced_files = (rp, ls) :: rest)
    (hmatch : pathMatch m.res rp f.path = true)
    (_hexact : ∀ c ∈ added_lines.toFinset ∪ removed_lines.toFinset, c ∉ ls) :
    (∀ L r, L ∈ added_lines.toFinset ∪ removed_lines.toFinset → r ∈ ls →
      1 ≤ r → L ≤ r + 3 → r ≤ L + 3 →
      ∃ ae, check_mypy_dependency m ep f added_lines removed_lines = some ae
        ∧ ae.confidence = .medium)
    ∧ ((∀ r ∈ ls, ∀ L ∈ added_lines.toFinset ∪ removed_lines.toFinset,
        r + 3 < L ∨ L + 3 < r) →
      check_mypy_dependency m ep f added_lines removed_lines = none) := by
  have hrf : deps.references_file m.res f.path = true :=
    references_file_head_match deps m.res f.path rp ls rest hfiles hmatch
  have hlines : ∀ lines, deps.references_lines m.res f.path lines = ls ∩ lines :=
    fun lines => references_lines_head_match deps m.res f.path lines rp ls rest hfiles hmatch
  constructor
  · intro L r hL hr hr1 hLr hrL
    have hctx : r ∈ (added_lines.toFinset ∪ removed_lines.toFinset).biUnion
        (fun l => Finset.Icc (max 1 (l - 3)) (l + 3)) := by
      refine Finset.mem_biUnion.mpr ⟨L, hL, Finset.mem_Icc.mpr ⟨?_, hrL⟩⟩
      exact max_le hr1 (Nat.sub_le_iff_le_add.mpr hLr)
    have hmem : r ∈ ls ∩ ((added_lines.toFinset ∪ removed_lines.toFinset)
        ∪ (added_lines.toFinset ∪ removed_lines.toFinset).biUnion
          (fun l => Finset.Icc (max 1 (l - 3)) (l + 3))) :=
      Finset.mem_inter.mpr ⟨hr, Finset.mem_union_right _ hctx⟩
    simp only [check_mypy_dependency, hdeps, hrf, hlines]
    rw [if_neg (by simp), if_pos ⟨r, hmem⟩]
    exact ⟨_, rfl, rfl⟩
  · intro hfar
    have hempty : ls ∩ ((added_lines.toFinset ∪ removed_lines.toFinset)
        ∪ (added_lines.toFinset ∪ removed_lines.toFinset).biUnion
          (fun l => Finset.Icc (max 1 (l - 3)) (l + 3))) = ∅ := by
      rw [Finset.eq_empty_iff_forall_not_mem]
      intro r hrmem
      obtain ⟨hr, hmem⟩ := Finset.mem_inter.mp hrmem
      rcases Finset.mem_union.mp hmem with hch | hctx
      · rcases hfar r hr r hch with h | h <;> omega
      · obtain ⟨L, hL, hIcc⟩ := Finset.mem_biUnion.mp hctx
        obtain ⟨h₁, h₂⟩ := Finset.mem_Icc.mp hIcc
        have hLmax : max 1 (L - 3) ≤ r := h₁
        rcases hfar r hr L hL with h | h
        · have : L - 3 ≤ r := le_trans (le_max_right 1 (L - 3)) hLmax
          omega
        · omega
    simp only [check_mypy_dependency, hdeps, hrf, hlines]
    rw [if_neg (by simp), hempty]
    simp

/-- C6 witness: recorded line 10 in `/r/svc.py`, changed line 13 — distance
3 — gives a MEDIUM finding; with the changed line at 14 — distance 4 — no
finding is produced. -/
theorem claim_C6_witness :
    (∃ ae, check_mypy_dependency
        ⟨⟨[], []⟩, ⟨true, 1/2⟩, .mypy, ⟨[], fun _ => none⟩, [],
          [("GET /x", EndpointDependencies.mk "GET /x" ["GET"] "/x"
            [("/r/svc.py", {10})] [] [])], id⟩
        ⟨"/x", ["GET"], ⟨"h", "app", "/r/app.py", 1, some 5⟩⟩
        ⟨"/r/svc.py", .modified, [⟨13, 1, 13, 1, [13], []⟩]⟩
        [13] [] = some ae ∧ ae.confidence = .medium)
    ∧ check_mypy_dependency
        ⟨⟨[], []⟩, ⟨true, 1/2⟩, .mypy, ⟨[], fun _ => none⟩, [],
          [("GET /x", EndpointDependencies.mk "GET /x" ["GET"] "/x"
            [("/r/svc.py", {10})] [] [])], id⟩
        ⟨"/x", ["GET"], ⟨"h", "app", "/r/app.py", 1, some 5⟩⟩
        ⟨"/r/svc.py", .modified, [⟨14, 1, 14, 1, [14], []⟩]⟩
        [14] [] = none := by
  constructor
  · exact (claim_C6
      ⟨⟨[], []⟩, ⟨true, 1/2⟩, .mypy, ⟨[], fun _ => none⟩, [],
        [("GET /x", EndpointDependencies.mk "GET /x" ["GET"] "/x"
          [("/r/svc.py", {10})] [] [])], id⟩
      ⟨"/x", ["GET"], ⟨"h", "app", "/r/app.py", 1, some 5⟩⟩
      ⟨"/r/svc.py", .modified, [⟨13, 1, 13, 1, [13], []⟩]⟩
      [13] []
      (EndpointDependencies.mk "GET /x" ["GET"] "/x" [("/r/svc.py", {10})] [] [])
      "/r/svc.py" {10} [] (by decide) rfl (by decide) (by decide)).1
      13 10 (by decide) (by decide) (by decide) (by decide) (by decide)
  · exact (claim_C6
      ⟨⟨[], []⟩, ⟨true, 1/2⟩, .mypy, ⟨[], fun _ => none⟩, [],
        [("GET /x", EndpointDependencies.mk "GET /x" ["GET"] "/x"
          [("/r/svc.py", {10})] [] [])], id⟩
      ⟨"/x", ["GET"], ⟨"h", "app", "/r/app.py", 1, some 5⟩⟩
      ⟨"/r/svc.py", .modified, [⟨14, 1, 14, 1, [14], []⟩]⟩
      [14] []
      (EndpointDependencies.mk "GET /x" ["GET"] "/x" [("/r/svc.py", {10})] [] [])
      "/r/svc.py" {10} [] (by decide) rfl (by decide) (by decide)).2 (by decide)

/-! ### C9: malformed diff input -/

/-- C9: when diff parsing fails, `analyze_diff` still returns a structured
report whose `errors` list holds exactly the one parse-failure string and
whose `affected_endpoints` list is empty. -/
theorem claim_C9 (m : ChangeMapper) (e : String) :
    (analyze_diff m (.error e)).errors = ["Failed to parse diff: " ++ e]
    ∧ (analyze_diff m (.error e)).affected_endpoints = [] := by
  constructor
  · rfl
  · rfl

/-! ### C1: direct-hit precedence -/

theorem directPhase_acc_mono (f : DiffFile) (a r : List Nat) :
    ∀ (eps : List Endpoint) (acc : List AffectedEndpoint) (seen : Finset String)
      (x : AffectedEndpoint), x ∈ acc → x ∈ (directPhase f a r eps acc seen).1 := by
  intro eps
  induction eps with
  | nil => intro acc seen x hx; simpa [directPhase] using hx
  | cons ep rest ih =>
    intro acc seen x hx
    simp only [directPhase]
    cases check_direct_handler_change ep f a r with
    | none => exact ih acc seen x hx
    | some res => exact ih (acc ++ [res]) _ x (List.mem_append_left _ hx)

theorem directPhase_seen_mono (f : DiffFile) (a r : List Nat) :
    ∀ (eps : List Endpoint) (acc : List AffectedEndpoint) (seen : Finset String)
      (s : String), s ∈ seen → s ∈ (directPhase f a r eps acc seen).2 := by
  intro eps
  induction eps with
  | nil => intro acc seen s hs; simpa [directPhase] using hs
  | cons ep rest ih =>
    intro acc seen s hs
    simp only [directPhase]
    cases check_direct_handler_change ep f a r with
    | none => exact ih acc seen s hs
    | some res => exact ih _ _ s (Finset.mem_insert_of_mem hs)

theorem directPhase_hit (f : DiffFile) (a r : List Nat) :
    ∀ (eps : List Endpoint) (acc : List AffectedEndpoint) (seen : Finset String)
      (ep : Endpoint) (res : AffectedEndpoint),
      ep ∈ eps → check_direct_handler_change ep f a r = some res →
      res ∈ (directPhase f a r eps acc seen).1
        ∧ ep.identifier ∈ (directPhase f a r eps acc seen).2 := by
  intro eps
  induction eps with
  | nil => intro _ _ _ _ h; simp at h
  | cons hd rest ih =>
    intro acc seen ep res hmem hcheck
    rcases List.mem_cons.mp hmem with heq | htl
    · subst heq
      simp only [directPhase, hcheck]
      exact ⟨directPhase_acc_mono f a r rest _ _ res (List.mem_append_right _ (by simp)),
        directPhase_seen_mono f a r rest _ _ _ (Finset.mem_insert_self _ _)⟩
    · simp only [directPhase]
      cases check_direct_handler_change hd f a r with
      | none => exact ih acc seen ep res htl hcheck
      | some res' => exact ih _ _ ep res htl hcheck

theorem backendLoop_acc_mono (check : Endpoint → Option AffectedEndpoint) :
    ∀ (eps : List Endpoint) (acc : List AffectedEndpoint) (seen : Finset String)
      (ev : List String) (x : AffectedEndpoint),
      x ∈ acc → x ∈ (backendLoop check eps acc seen ev).1 := by
  intro eps
  induction eps with
  | nil => intro acc seen ev x hx; simpa [backendLoop] using hx
  | cons ep rest ih =>
    intro acc seen ev x hx
    simp only [backendLoop]
    by_cases hseen : ep.identifier ∈ seen
    · rw [if_pos hseen]; exact ih acc seen ev x hx
    · rw [if_neg hseen]
      cases check ep with
      | none => exact ih acc seen _ x hx
      | some res => exact ih (acc ++ [res]) _ _ x (List.mem_append_left _ hx)

theorem backendLoop_no_eval_of_seen (check : Endpoint → Option AffectedEndpoint) :
    ∀ (eps : List Endpoint) (acc : List AffectedEndpoint) (seen : Finset String)
      (ev : List String) (s : String),
      s ∈ seen → s ∉ ev → s ∉ (backendLoop check eps acc seen ev).2.2 := by
  intro eps
  induction eps with
  | nil => intro acc seen ev s hs hev; simpa [backendLoop] using hev
  | cons ep rest ih =>
    intro acc seen ev s hs hev
    simp only [backendLoop]
    by_cases hseen : ep.identifier ∈ seen
    · rw [if_pos hseen]; exact ih acc seen ev s hs hev
    · rw [if_neg hseen]
      have hne : s ≠ ep.identifier := fun h => hseen (h ▸ hs)
      have hev' : s ∉ ev ++ [ep.identifier] := by
        simp [hev, hne]
      cases check ep with
      | none => exact ih acc seen _ s hs hev'
      | some res => exact ih _ _ _ s (Finset.mem_insert_of_mem hs) hev'

theorem analyze_diff_file_keeps_direct (m : ChangeMapper) (f : DiffFile)
    (x : AffectedEndpoint)
    (hx : x ∈ (directPhase f (get_changed_line_numbers f).1 (get_changed_line_numbers f).2
      (m.registry.get_by_file m.res f.path) [] ∅).1) :
    x ∈ (analyze_diff_file m f).findings := by
  simp only [analyze_diff_file]
  split
  · exact backendLoop_acc_mono _ _ _ _ _ _ hx
  · exact backendLoop_acc_mono _ _ _ _ _ _ hx
  · split
    · split
      · exact backendLoop_acc_mono _ _ _ _ _ _ hx
      · exact hx
    · exact hx

theorem analyze_diff_file_not_evaluated (m : ChangeMapper) (f : DiffFile)
    (s : String)
    (hs : s ∈ (directPhase f (get_changed_line_numbers f).1 (get_changed_line_numbers f).2
      (m.registry.get_by_file m.res f.path) [] ∅).2) :
    s ∉ (analyze_diff_file m f).evaluated := by
  simp only [analyze_diff_file]
  split
  · exact backendLoop_no_eval_of_seen _ _ _ _ _ _ hs (by simp)
  · exact backendLoop_no_eval_of_seen _ _ _ _ _ _ hs (by simp)
  · split
    · split
      · exact backendLoop_no_eval_of_seen _ _ _ _ _ _ hs (by simp)
      · simp
    · simp

/-- C1: an endpoint declared in a changed file whose handler range (with the
`start + 50` default when the end line is unknown) meets the diff's changed
lines yields a HIGH-confidence finding for that file, and its identifier is
never handed to the backend check of any backend for that file. -/
theorem claim_C1 (m : ChangeMapper) (f : DiffFile) (ep : Endpoint)
    (hmem : ep ∈ m.registry.get_by_file m.res f.path)
    (hit : (((get_changed_line_numbers f).1.toFinset
        ∪ (get_changed_line_numbers f).2.toFinset)
      ∩ Finset.Icc ep.handler.line_number
        (orTruthy ep.handler.end_line_number (ep.handler.line_number + 50))).Nonempty) :
    (∃ ae ∈ (analyze_diff_file m f).findings,
      ae.endpoint = ep ∧ ae.confidence = .high)
    ∧ ep.identifier ∉ (analyze_diff_file m f).evaluated := by
  have hcheck : check_direct_handler_change ep f (get_changed_line_numbers f).1
      (get_changed_line_numbers f).2 = some
      { endpoint := ep
        confidence := .high
        reason := "Handler function directly modified in " ++ f.path
        dependency_chain := [f.path]
        changed_files := [f.path]
        call_stack := [] } := by
    simp only [check_direct_handler_change]
    rw [if_pos hit]
  have hdp := directPhase_hit f (get_changed_line_numbers f).1 (get_changed_line_numbers f).2
    (m.registry.get_by_file m.res f.path) [] ∅ ep _ hmem hcheck
  exact ⟨⟨_, analyze_diff_file_keeps_direct m f _ hdp.1, rfl, rfl⟩,
    analyze_diff_file_not_evaluated m f _ hdp.2⟩

/-- C1 witness: a registry with one `GET /items` endpoint at lines 10–20 of
`/r/app.py`; a diff changing line 12 of that file yields the HIGH finding
and the endpoint is not evaluated by the (mypy) backend. -/
theorem claim_C1_witness :
    (∃ ae ∈ (analyze_diff_file
      ⟨⟨[⟨"/items", ["GET"], ⟨"get_items", "app", "/r/app.py", 10, some 20⟩⟩],
          [("/r/app.py", [⟨"/items", ["GET"], ⟨"get_items", "app", "/r/app.py", 10, some 20⟩⟩])]⟩,
        ⟨true, 1/2⟩, .mypy, ⟨[], fun _ => none⟩, [], [], id⟩
      ⟨"/r/app.py", .modified, [⟨12, 1, 12, 1, [12], []⟩]⟩).findings,
      ae.endpoint = ⟨"/items", ["GET"], ⟨"get_items", "app", "/r/app.py", 10, some 20⟩⟩
        ∧ ae.confidence = .high)
    ∧ (Endpoint.identifier ⟨"/items", ["GET"], ⟨"get_items", "app", "/r/app.py", 10, some 20⟩⟩)
      ∉ (analyze_diff_file
      ⟨⟨[⟨"/items", ["GET"], ⟨"get_items", "app", "/r/app.py", 10, some 20⟩⟩],
          [("/r/app.py", [⟨"/items", ["GET"], ⟨"get_items", "app", "/r/app.py", 10, some 20⟩⟩])]⟩,
        ⟨true, 1/2⟩, .mypy, ⟨[], fun _ => none⟩, [], [], id⟩
      ⟨"/r/app.py", .modified, [⟨12, 1, 12, 1, [12], []⟩]⟩).evaluated :=
  claim_C1
    ⟨⟨[⟨"/items", ["GET"], ⟨"get_items", "app", "/r/app.py", 10, some 20⟩⟩],
        [("/r/app.py", [⟨"/items", ["GET"], ⟨"get_items", "app", "/r/app.py", 10, some 20⟩⟩])]⟩,
      ⟨true, 1/2⟩, .mypy, ⟨[], fun _ => none⟩, [], [], id⟩
    ⟨"/r/app.py", .modified, [⟨12, 1, 12, 1, [12], []⟩]⟩
    ⟨"/items", ["GET"], ⟨"get_items", "app", "/r/app.py", 10, some 20⟩⟩
    (by decide) (by decide)

/-! ### C5: whole-diff deduplication -/

theorem dedupAffected_mem_not_seen :
    ∀ (l : List AffectedEndpoint) (seen : Finset String) (x : AffectedEndpoint),
      x ∈ dedupAffected l seen → x.endpoint.identifier ∉ seen := by
  intro l
  induction l with
  | nil => intro seen x hx; simp [dedupAffected] at hx
  | cons ae rest ih =>
    intro seen x hx
    simp only [dedupAffected] at hx
    by_cases hseen : ae.endpoint.identifier ∈ seen
    · rw [if_pos hseen] at hx
      exact ih seen x hx
    · rw [if_neg hseen] at hx
      rcases List.mem_cons.mp hx with heq | htl
      · subst heq; exact hseen
      · intro hmem
        exact ih _ x htl (Finset.mem_insert_of_mem hmem)

theorem dedupAffected_pairwise :
    ∀ (l : List AffectedEndpoint) (seen : Finset String),
      (dedupAffected l seen).Pairwise
        (fun a b => a.endpoint.identifier ≠ b.endpoint.identifier) := by
  intro l
  induction l with
  | nil => intro seen; simp [dedupAffected]
  | cons ae rest ih =>
    intro seen
    simp only [dedupAffected]
    by_cases hseen : ae.endpoint.identifier ∈ seen
    · rw [if_pos hseen]; exact ih seen
    · rw [if_neg hseen]
      refine List.Pairwise.cons ?_ (ih _)
      intro y hy heq
      exact dedupAffected_mem_not_seen rest _ y hy (heq ▸ Finset.mem_insert_self _ _)

theorem dedupAffected_first :
    ∀ (l : List AffectedEndpoint) (seen : Finset String) (x : AffectedEndpoint),
      x ∈ dedupAffected l seen →
      ∃ pre post, l = pre ++ x :: post
        ∧ ∀ y ∈ pre, y.endpoint.identifier = x.endpoint.identifier →
            y.endpoint.identifier ∈ seen := by
  intro l
  induction l with
  | nil => intro seen x hx; simp [dedupAffected] at hx
  | cons ae rest ih =>
    intro seen x hx
    simp only [dedupAffected] at hx
    by_cases hseen : ae.endpoint.identifier ∈ seen
    · rw [if_pos hseen] at hx
      obtain ⟨pre, post, heq, hpre⟩ := ih seen x hx
      refine ⟨ae :: pre, post, by simp [heq], ?_⟩
      intro y hy
      rcases List.mem_cons.mp hy with rfl | hyp
      · intro _; exact hseen
      · exact hpre y hyp
    · rw [if_neg hseen] at hx
      rcases List.mem_cons.mp hx with rfl | htl
      · exact ⟨[], rest, rfl, by simp⟩
      · obtain ⟨pre, post, heq, hpre⟩ := ih _ x htl
        have hxnot := dedupAffected_mem_not_seen rest _ x htl
        refine ⟨ae :: pre, post, by simp [heq], ?_⟩
        intro y hy
        rcases List.mem_cons.mp hy with rfl | hyp
        · intro hid
          exact (hxnot (Finset.mem_insert.mpr (Or.inl hid.symm))).elim
        · intro hid
          have hins := hpre y hyp hid
          rcases Finset.mem_insert.mp hins with heq' | hmem
          · exact (hxnot (Finset.mem_insert.mpr (Or.inl (hid.symm.trans heq')))).elim
          · exact hmem

theorem backendLoop_acc_prefix (check : Endpoint → Option AffectedEndpoint) :
    ∀ (eps : List Endpoint) (acc : List AffectedEndpoint) (seen : Finset String)
      (ev : List String), ∃ tail, (backendLoop check eps acc seen ev).1 = acc ++ tail := by
  intro eps
  induction eps with
  | nil => intro acc seen ev; exact ⟨[], by simp [backendLoop]⟩
  | cons ep rest ih =>
    intro acc seen ev
    simp only [backendLoop]
    by_cases hseen : ep.identifier ∈ seen
    · rw [if_pos hseen]; exact ih acc seen ev
    · rw [if_neg hseen]
      cases check ep with
      | none => exact ih acc seen _
      | some res =>
        obtain ⟨tail, htail⟩ := ih (acc ++ [res]) (insert ep.identifier seen) (ev ++ [ep.identifier])
        exact ⟨res :: tail, by simp [htail]⟩

theorem analyze_diff_file_direct_first (m : ChangeMapper) (f : DiffFile) :
    ∃ tail, (analyze_diff_file m f).findings = (analyze_diff_file m f).direct ++ tail := by
  simp only [analyze_diff_file]
  split
  · exact backendLoop_acc_prefix _ _ _ _ _
  · exact backendLoop_acc_prefix _ _ _ _ _
  · split
    · split
      · exact backendLoop_acc_prefix _ _ _ _ _
      · exact ⟨[], by simp⟩
    · exact ⟨[], by simp⟩

/-- C5: the final report holds at most one finding per endpoint identifier;
a finding that is kept is the first one produced for its identifier in file
order; and within each file the direct-handler findings precede the backend
findings. -/
theorem claim_C5 (m : ChangeMapper) (pr : Except String (List DiffFile))
    (ae : AffectedEndpoint)
    (hae : ae ∈ (analyze_diff m pr).affected_endpoints) :
    ((analyze_diff m pr).affected_endpoints.Pairwise
      (fun x y => x.endpoint.identifier ≠ y.endpoint.identifier))
    ∧ (∃ pre post,
        (get_python_files (pr.toOption.getD [])).flatMap
            (fun f => (analyze_diff_file m f).findings) = pre ++ ae :: post
          ∧ ∀ y ∈ pre, y.endpoint.identifier ≠ ae.endpoint.identifier)
    ∧ (∀ g : DiffFile, ∃ tail,
        (analyze_diff_file m g).findings = (analyze_diff_file m g).direct ++ tail) := by
  have haff : (analyze_diff m pr).affected_endpoints
      = ((get_python_files (pr.toOption.getD [])).flatMap
          (fun f => (analyze_diff_file m f).findings)
        |> (dedupAffected · ∅)
        |> List.filter (fun x =>
            decide (m.config.confidence_threshold ≤ confidence_order x.confidence))) := by
    clear hae
    cases pr <;> rfl
  refine ⟨?_, ?_, fun g => analyze_diff_file_direct_first m g⟩
  · rw [haff]
    exact List.Pairwise.filter _ (dedupAffected_pairwise _ ∅)
  · rw [haff] at hae
    have hmem := (List.mem_filter.mp hae).1
    obtain ⟨pre, post, heq, hpre⟩ := dedupAffected_first _ ∅ ae hmem
    refine ⟨pre, post, heq, fun y hy hid => ?_⟩
    simpa using hpre y hy hid

/-- C5 witness: two changed files (`/r/app.py` hitting the handler, then
`/r/svc.py` hitting a traced dependency) both implicate `GET /items`; the
report keeps exactly the first (HIGH, direct-handler) finding. -/
theorem claim_C5_witness :
    (AffectedEndpoint.mk
        ⟨"/items", ["GET"], ⟨"get_items", "app", "/r/app.py", 10, some 20⟩⟩
        .high ("Handler function directly modified in " ++ "/r/app.py")
        ["/r/app.py"] ["/r/app.py"] [])
      ∈ (analyze_diff
        ⟨⟨[⟨"/items", ["GET"], ⟨"get_items", "app", "/r/app.py", 10, some 20⟩⟩],
            [("/r/app.py", [⟨"/items", ["GET"], ⟨"get_items", "app", "/r/app.py", 10, some 20⟩⟩])]⟩,
          ⟨true, 1/2⟩, .mypy, ⟨[], fun _ => none⟩, [],
          [("GET /items", EndpointDependencies.mk "GET /items" ["GET"] "/items"
            [("/r/svc.py", {5})] [] [])], id⟩
        (.ok [⟨"/r/app.py", .modified, [⟨12, 1, 12, 1, [12], []⟩]⟩,
              ⟨"/r/svc.py", .modified, [⟨5, 1, 5, 1, [5], []⟩]⟩])).affected_endpoints
    ∧ ((analyze_diff
        ⟨⟨[⟨"/items", ["GET"], ⟨"get_items", "app", "/r/app.py", 10, some 20⟩⟩],
            [("/r/app.py", [⟨"/items", ["GET"], ⟨"get_items", "app", "/r/app.py", 10, some 20⟩⟩])]⟩,
          ⟨true, 1/2⟩, .mypy, ⟨[], fun _ => none⟩, [],
          [("GET /items", EndpointDependencies.mk "GET /items" ["GET"] "/items"
            [("/r/svc.py", {5})] [] [])], id⟩
        (.ok [⟨"/r/app.py", .modified, [⟨12, 1, 12, 1, [12], []⟩]⟩,
              ⟨"/r/svc.py", .modified, [⟨5, 1, 5, 1, [5], []⟩]⟩])).affected_endpoints.Pairwise
      (fun x y => x.endpoint.identifier ≠ y.endpoint.identifier)) := by
  set cm : ChangeMapper :=
    ⟨⟨[⟨"/items", ["GET"], ⟨"get_items", "app", "/r/app.py", 10, some 20⟩⟩],
        [("/r/app.py", [⟨"/items", ["GET"], ⟨"get_items", "app", "/r/app.py", 10, some 20⟩⟩])]⟩,
      ⟨true, 1/2⟩, .mypy, ⟨[], fun _ => none⟩, [],
      [("GET /items", EndpointDependencies.mk "GET /items" ["GET"] "/items"
        [("/r/svc.py", {5})] [] [])], id⟩ with hcm
  set pr : Except String (List DiffFile) :=
    .ok [⟨"/r/app.py", .modified, [⟨12, 1, 12, 1, [12], []⟩]⟩,
         ⟨"/r/svc.py", .modified, [⟨5, 1, 5, 1, [5], []⟩]⟩] with hpr
  set aeL : AffectedEndpoint :=
    AffectedEndpoint.mk
      ⟨"/items", ["GET"], ⟨"get_items", "app", "/r/app.py", 10, some 20⟩⟩
      .high ("Handler function directly modified in " ++ "/r/app.py")
      ["/r/app.py"] ["/r/app.py"] [] with haeL
  have h1 : (analyze_diff cm pr).affected_endpoints
      = List.filter (fun x => decide ((1 : ℚ)/2 ≤ confidence_order x.confidence)) [aeL] := by
    rw [hcm, hpr, haeL]
    rfl
  have hp : decide ((1 : ℚ)/2 ≤ confidence_order ConfidenceLevel.high) = true := by
    norm_num [confidence_order]
  have h2 : List.filter
      (fun x => decide ((1 : ℚ)/2 ≤ confidence_order x.confidence)) [aeL] = [aeL] := by
    rw [haeL]
    norm_num [confidence_order]
  have hae : aeL ∈ (analyze_diff cm pr).affected_endpoints := by
    rw [h1, h2]
    exact List.mem_singleton.mpr rfl
  exact ⟨hae, (claim_C5 cm pr aeL hae).1⟩

/-! ### C3: cycle guard keeps the single-level reference -/

theorem lookupA_updateA {β : Type} (init : β) (g : β → β) :
    ∀ (l : List (String × β)) (k k' : String),
      lookupA (updateA init g l k) k' =
        if k = k' then some (g ((lookupA l k).getD init)) else lookupA l k' := by
  intro l
  induction l with
  | nil =>
    intro k k'
    by_cases h : k = k' <;> simp [updateA, lookupA, h]
  | cons a rest ih =>
    intro k k'
    obtain ⟨ak, av⟩ := a
    by_cases h1 : ak = k
    · subst h1
      by_cases h2 : ak = k' <;> simp [updateA, lookupA, h2]
    · simp only [updateA, if_neg h1]
      by_cases h2 : ak = k'
      · subst h2
        have hkk' : k ≠ ak := fun h => h1 h.symm
        simp [lookupA, ih, hkk']
      · simp [lookupA, h2, ih k k', h1]

theorem linesOf_add_reference_self (d : EndpointDependencies)
    (fp : String) (l : Nat) (s : String) :
    l ∈ linesOf (d.add_reference fp l s) fp := by
  simp [linesOf, EndpointDependencies.add_reference, lookupA_updateA]

theorem depsLe_refl (d : EndpointDependencies) : depsLe d d :=
  ⟨fun _ h => h, fun _ _ h => h⟩

theorem depsLe_trans {a b c : EndpointDependencies}
    (h1 : depsLe a b) (h2 : depsLe b c) : depsLe a c :=
  ⟨fun r hr => h2.1 r (h1.1 r hr), fun fp => (h1.2 fp).trans (h2.2 fp)⟩

theorem depsLe_add_reference (d : EndpointDependencies)
    (fp : String) (l : Nat) (s : String) :
    depsLe d (d.add_reference fp l s) := by
  refine ⟨fun r hr => hr, fun fp' => ?_⟩
  simp only [linesOf, EndpointDependencies.add_reference, lookupA_updateA]
  by_cases h : fp = fp'
  · subst h
    rw [if_pos rfl]
    cases hl : lookupA d.referenced_files fp <;>
      simp [hl, Finset.subset_insert]
  · rw [if_neg h]

theorem depsLe_add_symbol_reference (d : EndpointDependencies)
    (fp sym : String) (a b : Nat) :
    depsLe d (d.add_symbol_reference fp sym a b) := by
  refine ⟨fun r hr => List.mem_append_left _ hr, fun fp' => ?_⟩
  simp only [linesOf, EndpointDependencies.add_symbol_reference, lookupA_updateA]
  by_cases h : fp = fp'
  · subst h
    rw [if_pos rfl]
    cases hl : lookupA d.referenced_files fp <;>
      simp [hl, Finset.subset_union_left]
  · rw [if_neg h]

theorem depsLe_addCallStackIfAbsent (d : EndpointDependencies)
    (fp : String) (stack : List CallFrame) :
    depsLe d (addCallStackIfAbsent d fp stack) := by
  unfold addCallStackIfAbsent
  split
  · exact depsLe_refl d
  · exact ⟨fun r hr => hr, fun _ _ h => h⟩

theorem trace_mono (proj : MypyProject) :
    ∀ fuel : Nat,
      (∀ (fullname : String) (cl : Nat) (cs : List CallFrame) (st : TraceState),
        depsLe st.deps (resolve_and_trace proj fuel fullname cl cs st).deps
          ∧ st.visited ⊆ (resolve_and_trace proj fuel fullname cl cs st).visited)
      ∧ (∀ (cf : String) (cs : List CallFrame) (n : MExpr) (st : TraceState),
        depsLe st.deps (walkNode proj fuel cf cs n st).deps
          ∧ st.visited ⊆ (walkNode proj fuel cf cs n st).visited)
      ∧ (∀ (cf : String) (cs : List CallFrame) (ns : List MExpr) (st : TraceState),
        depsLe st.deps (walkList proj fuel cf cs ns st).deps
          ∧ st.visited ⊆ (walkList proj fuel cf cs ns st).visited) := by
  intro fuel
  induction fuel with
  | zero =>
    refine ⟨?_, ?_, ?_⟩
    · intro fullname cl cs st
      simp only [resolve_and_trace]
      split
      · exact ⟨depsLe_refl _, fun _ h => h⟩
      · split
        · exact ⟨depsLe_refl _, fun _ h => Finset.mem_insert_of_mem h⟩
        · split
          · exact ⟨depsLe_refl _, fun _ h => Finset.mem_insert_of_mem h⟩
          · split
            · exact ⟨depsLe_trans (depsLe_add_symbol_reference _ _ _ _ _)
                (depsLe_addCallStackIfAbsent _ _ _),
                fun _ h => Finset.mem_insert_of_mem h⟩
            · exact ⟨depsLe_trans (depsLe_add_symbol_reference _ _ _ _ _)
                (depsLe_addCallStackIfAbsent _ _ _),
                fun _ h => Finset.mem_insert_of_mem h⟩
    · intro cf cs n st
      simp only [walkNode]
      exact ⟨depsLe_refl _, fun _ h => h⟩
    · intro cf cs ns st
      simp only [walkList]
      exact ⟨depsLe_refl _, fun _ h => h⟩
  | succ f ih =>
    obtain ⟨ihR, ihN, ihL⟩ := ih
    have hstep : ∀ (fullname : String) (cl : Nat) (cs : List CallFrame) (st : TraceState),
        depsLe st.deps (resolve_and_trace proj (f + 1) fullname cl cs st).deps
          ∧ st.visited ⊆ (resolve_and_trace proj (f + 1) fullname cl cs st).visited := by
      intro fullname cl cs st
      simp only [resolve_and_trace]
      split
      · exact ⟨depsLe_refl _, fun _ h => h⟩
      · split
        · exact ⟨depsLe_refl _, fun _ h => Finset.mem_insert_of_mem h⟩
        · split
          · exact ⟨depsLe_refl _, fun _ h => Finset.mem_insert_of_mem h⟩
          · split
            · refine ⟨depsLe_trans (depsLe_trans (depsLe_add_symbol_reference _ _ _ _ _)
                (depsLe_addCallStackIfAbsent _ _ _)) (ihL _ _ _ ⟨_, _⟩).1, ?_⟩
              exact fun x h =>
                (ihL _ _ _ ⟨_, _⟩).2 (Finset.mem_insert_of_mem h)
            · exact ⟨depsLe_trans (depsLe_add_symbol_reference _ _ _ _ _)
                (depsLe_addCallStackIfAbsent _ _ _),
                fun _ h => Finset.mem_insert_of_mem h⟩
    have hAR : ∀ (cf fn s : String) (l cl : Nat) (cs' : List CallFrame) (st' : TraceState),
        depsLe st'.deps (resolve_and_trace proj f fn cl cs'
          ⟨st'.deps.add_reference cf l s, st'.visited⟩).deps
        ∧ st'.visited ⊆ (resolve_and_trace proj f fn cl cs'
          ⟨st'.deps.add_reference cf l s, st'.visited⟩).visited := by
      intro cf fn s l cl cs' st'
      exact ⟨depsLe_trans (depsLe_add_reference st'.deps cf l s)
          (ihR fn cl cs' ⟨st'.deps.add_reference cf l s, st'.visited⟩).1,
        (ihR fn cl cs' ⟨st'.deps.add_reference cf l s, st'.visited⟩).2⟩
    have hAN : ∀ (cf s : String) (cs' : List CallFrame) (n : MExpr) (l : Nat) (st' : TraceState),
        depsLe st'.deps (walkNode proj f cf cs' n
          ⟨st'.deps.add_reference cf l s, st'.visited⟩).deps
        ∧ st'.visited ⊆ (walkNode proj f cf cs' n
          ⟨st'.deps.add_reference cf l s, st'.visited⟩).visited := by
      intro cf s cs' n l st'
      exact ⟨depsLe_trans (depsLe_add_reference st'.deps cf l s)
          (ihN cf cs' n ⟨st'.deps.add_reference cf l s, st'.visited⟩).1,
        (ihN cf cs' n ⟨st'.deps.add_reference cf l s, st'.visited⟩).2⟩
    refine ⟨hstep, ?_, ?_⟩
    · intro cf cs n st
      cases n with
      | call callee args line =>
        simp only [walkNode]
        have h1 : depsLe st.deps
            ((match callee with
              | .nameRef fullname _ =>
                if fullname ≠ "" then
                  resolve_and_trace proj f fullname line cs
                    ⟨st.deps.add_reference cf line fullname, st.visited⟩
                else st
              | .memberRef fullname nm recvType _ base =>
                if fullname ≠ "" then
                  resolve_and_trace proj f fullname line cs
                    ⟨st.deps.add_reference cf line fullname, st.visited⟩
                else
                  match recvType with
                  | some cls =>
                    resolve_and_trace proj f (cls ++ "." ++ nm) line cs
                      ⟨st.deps.add_reference cf line (cls ++ "." ++ nm), st.visited⟩
                  | none =>
                    match base with
                    | .nameRef bfn _ =>
                      if bfn ≠ "" then
                        resolve_and_trace proj f (bfn ++ "." ++ nm) line cs
                          ⟨st.deps.add_reference cf line (bfn ++ "." ++ nm), st.visited⟩
                      else st
                    | _ => st
              | _ => st : TraceState)).deps
            ∧ st.visited ⊆ (match callee with
              | .nameRef fullname _ =>
                if fullname ≠ "" then
                  resolve_and_trace proj f fullname line cs
                    ⟨st.deps.add_reference cf line fullname, st.visited⟩
                else st
              | .memberRef fullname nm recvType _ base =>
                if fullname ≠ "" then
                  resolve_and_trace proj f fullname line cs
                    ⟨st.deps.add_reference cf line fullname, st.visited⟩
                else
                  match recvType with
                  | some cls =>
                    resolve_and_trace proj f (cls ++ "." ++ nm) line cs
                      ⟨st.deps.add_reference cf line (cls ++ "." ++ nm), st.visited⟩
                  | none =>
                    match base with
                    | .nameRef bfn _ =>
                      if bfn ≠ "" then
                        resolve_and_trace proj f (bfn ++ "." ++ nm) line cs
                          ⟨st.deps.add_reference cf line (bfn ++ "." ++ nm), st.visited⟩
                      else st
                    | _ => st
              | _ => st : TraceState).visited := by
          split
          · split
            · exact hAR cf _ "" line line cs st
            · exact ⟨depsLe_refl _, fun _ h => h⟩
          · split
            · exact hAR cf _ "" line line cs st
            · split
              · exact hAR cf _ "" line line cs st
              · split
                · split
                  · exact hAR cf _ "" line line cs st
                  · exact ⟨depsLe_refl _, fun _ h => h⟩
                · exact ⟨depsLe_refl _, fun _ h => h⟩
          · exact ⟨depsLe_refl _, fun _ h => h⟩
        refine ⟨depsLe_trans h1.1 (depsLe_trans (ihN _ _ _ _).1 (ihL _ _ _ _).1), ?_⟩
        exact fun x h => (ihL _ _ _ _).2 ((ihN _ _ _ _).2 (h1.2 h))
      | memberRef fullname nm recvType line base =>
        simp only [walkNode]
        split
        · exact hAN cf "" cs base line st
        · exact ⟨(ihN _ _ _ _).1, (ihN _ _ _ _).2⟩
      | nameRef fullname line =>
        simp only [walkNode]
        split
        · exact ⟨depsLe_add_reference _ _ _ "", fun _ h => h⟩
        · exact ⟨depsLe_refl _, fun _ h => h⟩
      | compound children =>
        simp only [walkNode]
        exact ihL _ _ _ _
    · intro cf cs ns st
      cases ns with
      | nil =>
        simp only [walkList]
        exact ⟨depsLe_refl _, fun _ h => h⟩
      | cons n rest =>
        simp only [walkList]
        exact ⟨depsLe_trans (ihN _ _ _ _).1 (ihL _ _ _ _).1,
          fun x h => (ihL _ _ _ _).2 ((ihN _ _ _ _).2 h)⟩

theorem resolve_and_trace_visited (proj : MypyProject) (fuel : Nat)
    (fullname : String) (cl : Nat) (cs : List CallFrame) (st : TraceState)
    (hvis : fullname ∈ st.visited) :
    resolve_and_trace proj fuel fullname cl cs st = st := by
  rw [resolve_and_trace]
  exact if_pos hvis

/-- C3: when a call resolves to a fullname already in the visited set, the
tracer does not descend — `resolve_and_trace` leaves the state untouched —
yet the single-level reference is still recorded: walking the call adds the
call-site line for the current file, and every symbol reference already in
the dependencies (in particular the target's reference recorded at its first
resolution) is still present in the result. -/
theorem claim_C3 (proj : MypyProject) (fuel : Nat) (fullname : String)
    (cl lline call_line : Nat) (cf : String) (cs : List CallFrame)
    (args : List MExpr) (st : TraceState)
    (hvis : fullname ∈ st.visited) (hfn : fullname ≠ "") :
    resolve_and_trace proj fuel fullname cl cs st = st
    ∧ call_line ∈ linesOf (walkNode proj (fuel + 1) cf cs
        (.call (.nameRef fullname lline) args call_line) st).deps cf
    ∧ ∀ r ∈ st.deps.referenced_symbols,
        r ∈ (walkNode proj (fuel + 1) cf cs
          (.call (.nameRef fullname lline) args call_line) st).deps.referenced_symbols := by
  refine ⟨resolve_and_trace_visited proj fuel fullname cl cs st hvis, ?_, ?_⟩
  · simp only [walkNode]
    rw [if_pos hfn,
      resolve_and_trace_visited proj fuel fullname call_line cs
        ⟨st.deps.add_reference cf call_line fullname, st.visited⟩ hvis]
    have h1 : call_line ∈ linesOf (st.deps.add_reference cf call_line fullname) cf :=
      linesOf_add_reference_self st.deps cf call_line fullname
    have h2 := ((trace_mono proj fuel).2.1 cf cs (.nameRef fullname lline)
      ⟨st.deps.add_reference cf call_line fullname, st.visited⟩).1.2 cf
    have h3 := ((trace_mono proj fuel).2.2 cf cs args
      (walkNode proj fuel cf cs (.nameRef fullname lline)
        ⟨st.deps.add_reference cf call_line fullname, st.visited⟩)).1.2 cf
    exact h3 (h2 h1)
  · intro r hr
    simp only [walkNode]
    rw [if_pos hfn,
      resolve_and_trace_visited proj fuel fullname call_line cs
        ⟨st.deps.add_reference cf call_line fullname, st.visited⟩ hvis]
    have h2 := ((trace_mono proj fuel).2.1 cf cs (.nameRef fullname lline)
      ⟨st.deps.add_reference cf call_line fullname, st.visited⟩).1.1 r hr
    exact ((trace_mono proj fuel).2.2 cf cs args
      (walkNode proj fuel cf cs (.nameRef fullname lline)
        ⟨st.deps.add_reference cf call_line fullname, st.visited⟩)).1.1 r h2

/-- C3 witness: a repeated resolution of `svc.helper` (already visited, with
its symbol reference already recorded) leaves the trace state unchanged,
records the call line 12 for the current file, and keeps the target's
symbol reference. -/
theorem claim_C3_witness :
    resolve_and_trace
      ⟨true, [("svc", "/r/svc.py")], [], [("svc", ⟨[.funcDef ⟨"helper", 5, some 9, []⟩]⟩)], id⟩
      7 "svc.helper" 12
      [⟨"/r/app.py", 10, "handler", ""⟩]
      ⟨⟨"GET /x", ["GET"], "/x", [("/r/svc.py", {5, 6})],
        [⟨"/r/svc.py", "svc.helper", 5, 9⟩], []⟩, {"svc.helper"}⟩
      = ⟨⟨"GET /x", ["GET"], "/x", [("/r/svc.py", {5, 6})],
        [⟨"/r/svc.py", "svc.helper", 5, 9⟩], []⟩, {"svc.helper"}⟩
    ∧ (12 : Nat) ∈ linesOf (walkNode
      ⟨true, [("svc", "/r/svc.py")], [], [("svc", ⟨[.funcDef ⟨"helper", 5, some 9, []⟩]⟩)], id⟩
      8 "/r/app.py" [⟨"/r/app.py", 10, "handler", ""⟩]
      (.call (.nameRef "svc.helper" 12) [] 12)
      ⟨⟨"GET /x", ["GET"], "/x", [("/r/svc.py", {5, 6})],
        [⟨"/r/svc.py", "svc.helper", 5, 9⟩], []⟩, {"svc.helper"}⟩).deps "/r/app.py"
    ∧ ∀ r ∈ [(⟨"/r/svc.py", "svc.helper", 5, 9⟩ : SymbolReference)],
        r ∈ (walkNode
      ⟨true, [("svc", "/r/svc.py")], [], [("svc", ⟨[.funcDef ⟨"helper", 5, some 9, []⟩]⟩)], id⟩
      8 "/r/app.py" [⟨"/r/app.py", 10, "handler", ""⟩]
      (.call (.nameRef "svc.helper" 12) [] 12)
      ⟨⟨"GET /x", ["GET"], "/x", [("/r/svc.py", {5, 6})],
        [⟨"/r/svc.py", "svc.helper", 5, 9⟩], []⟩, {"svc.helper"}⟩).deps.referenced_symbols :=
  claim_C3
    ⟨true, [("svc", "/r/svc.py")], [], [("svc", ⟨[.funcDef ⟨"helper", 5, some 9, []⟩]⟩)], id⟩
    7 "svc.helper" 12 12 12 "/r/app.py"
    [⟨"/r/app.py", 10, "handler", ""⟩] []
    ⟨⟨"GET /x", ["GET"], "/x", [("/r/svc.py", {5, 6})],
      [⟨"/r/svc.py", "svc.helper", 5, 9⟩], []⟩, {"svc.helper"}⟩
    (by decide) (by decide)

/-! ### C4: line-ownership invariant -/

theorem lookupA_mem {β : Type} :
    ∀ (l : List (String × β)) (k : String) (v : β),
      lookupA l k = some v → (k, v) ∈ l := by
  intro l
  induction l with
  | nil => intro k v h; simp [lookupA] at h
  | cons a rest ih =>
    intro k v h
    obtain ⟨ak, av⟩ := a
    by_cases hk : ak = k
    · subst hk
      have h' : av = v := by simpa [lookupA] using h
      subst h'
      exact List.mem_cons_self _ _
    · simp only [lookupA, if_neg hk] at h
      exact List.mem_cons_of_mem _ (ih k v h)

theorem updateA_mem {β : Type} (init : β) (g : β → β) :
    ∀ (l : List (String × β)) (k : String) (p : String × β),
      p ∈ updateA init g l k →
      p ∈ l ∨ (p.1 = k ∧ p.2 = g ((lookupA l k).getD init)) := by
  intro l
  induction l with
  | nil =>
    intro k p hp
    simp only [updateA, List.mem_singleton] at hp
    subst hp
    exact Or.inr ⟨rfl, by simp [lookupA]⟩
  | cons a rest ih =>
    intro k p hp
    obtain ⟨ak, av⟩ := a
    by_cases hk : ak = k
    · subst hk
      simp only [updateA, if_pos rfl] at hp
      rcases List.mem_cons.mp hp with rfl | htl
      · exact Or.inr ⟨rfl, by simp [lookupA]⟩
      · exact Or.inl (List.mem_cons_of_mem _ htl)
    · simp only [updateA, if_neg hk] at hp
      rcases List.mem_cons.mp hp with rfl | htl
      · exact Or.inl (List.mem_cons_self _ _)
      · rcases ih k p htl with hin | ⟨h1, h2⟩
        · exact Or.inl (List.mem_cons_of_mem _ hin)
        · exact Or.inr ⟨h1, by simpa [lookupA, hk] using h2⟩

theorem linesOwned_add_symbol_reference (d : EndpointDependencies)
    (fp sym : String) (a b : Nat) (hd : linesOwned d) :
    linesOwned (d.add_symbol_reference fp sym a b) := by
  intro p hp l hl
  simp only [EndpointDependencies.add_symbol_reference] at hp ⊢
  rcases updateA_mem ∅ (· ∪ Finset.Icc a b) d.referenced_files fp p hp with hin | ⟨h1, h2⟩
  · obtain ⟨r, hr, hrf, hr1, hr2⟩ := hd p hin l hl
    exact ⟨r, List.mem_append_left _ hr, hrf, hr1, hr2⟩
  · rw [h2] at hl
    rcases Finset.mem_union.mp hl with hold | hIcc
    · cases hlook : lookupA d.referenced_files fp with
      | none => rw [hlook] at hold; simp at hold
      | some v =>
        rw [hlook] at hold
        simp only [Option.getD_some] at hold
        obtain ⟨r, hr, hrf, hr1, hr2⟩ := hd (fp, v) (lookupA_mem _ _ _ hlook) l hold
        exact ⟨r, List.mem_append_left _ hr, h1 ▸ hrf, hr1, hr2⟩
    · refine ⟨⟨fp, sym, a, b⟩, List.mem_append_right _ (by simp), h1 ▸ rfl, ?_, ?_⟩
      · exact (Finset.mem_Icc.mp hIcc).1
      · exact (Finset.mem_Icc.mp hIcc).2

theorem linesOwned_add_reference (d : EndpointDependencies)
    (cf s : String) (line : Nat) (hd : linesOwned d)
    (hcov : ∃ r ∈ d.referenced_symbols,
      r.file_path = cf ∧ r.start_line ≤ line ∧ line ≤ r.end_line) :
    linesOwned (d.add_reference cf line s) := by
  intro p hp l hl
  simp only [EndpointDependencies.add_reference] at hp ⊢
  rcases updateA_mem ∅ (insert line) d.referenced_files cf p hp with hin | ⟨h1, h2⟩
  · exact hd p hin l hl
  · rw [h2] at hl
    rcases Finset.mem_insert.mp hl with rfl | hold
    · obtain ⟨r, hr, hrf, hr1, hr2⟩ := hcov
      exact ⟨r, hr, h1 ▸ hrf, hr1, hr2⟩
    · cases hlook : lookupA d.referenced_files cf with
      | none => rw [hlook] at hold; simp at hold
      | some v =>
        rw [hlook] at hold
        simp only [Option.getD_some] at hold
        obtain ⟨r, hr, hrf, hr1, hr2⟩ := hd (cf, v) (lookupA_mem _ _ _ hlook) l hold
        exact ⟨r, hr, h1 ▸ hrf, hr1, hr2⟩

theorem refs_addCallStackIfAbsent (d : EndpointDependencies)
    (fp : String) (stack : List CallFrame) :
    (addCallStackIfAbsent d fp stack).referenced_symbols = d.referenced_symbols := by
  unfold addCallStackIfAbsent
  split <;> rfl

theorem files_addCallStackIfAbsent (d : EndpointDependencies)
    (fp : String) (stack : List CallFrame) :
    (addCallStackIfAbsent d fp stack).referenced_files = d.referenced_files := by
  unfold addCallStackIfAbsent
  split <;> rfl

theorem linesOwned_addCallStackIfAbsent (d : EndpointDependencies)
    (fp : String) (stack : List CallFrame) (hd : linesOwned d) :
    linesOwned (addCallStackIfAbsent d fp stack) := by
  intro p hp l hl
  rw [files_addCallStackIfAbsent] at hp
  rw [refs_addCallStackIfAbsent]
  exact hd p hp l hl

theorem findMethod_mem (nm : String) :
    ∀ (ms : List FuncDef) (f : FuncDef), findMethod nm ms = some f → f ∈ ms := by
  intro ms
  induction ms with
  | nil => intro f h; simp [findMethod] at h
  | cons m rest ih =>
    intro f h
    simp only [findMethod] at h
    split at h
    · cases h; exact List.mem_cons_self _ _
    · exact List.mem_cons_of_mem _ (ih f h)

theorem find_func_in_tree_mem :
    ∀ (defs : List TreeDef) (nm : String) (f : FuncDef),
      find_func_in_tree defs nm = some f → f ∈ treeFuncs ⟨defs⟩ := by
  intro defs
  induction defs with
  | nil => intro nm f h; simp [find_func_in_tree] at h
  | cons td rest ih =>
    intro nm f h
    cases td with
    | funcDef fd =>
      simp only [find_func_in_tree] at h
      split at h
      · cases h
        simp [treeFuncs]
      · have := ih nm f h
        simp only [treeFuncs, List.flatMap_cons] at this ⊢
        exact List.mem_append_right _ this
    | classDef cname methods =>
      simp only [find_func_in_tree] at h
      split at h
      · rename_i g hg
        injection h with h'
        subst h'
        simp only [treeFuncs, List.flatMap_cons]
        exact List.mem_append_left _ (findMethod_mem nm methods g hg)
      · have := ih nm f h
        simp only [treeFuncs, List.flatMap_cons] at this ⊢
        exact List.mem_append_right _ this

theorem find_func_in_tree_mem' (t : ModTree) (nm : String) (f : FuncDef)
    (h : find_func_in_tree t.defs nm = some f) : f ∈ treeFuncs t := by
  obtain ⟨defs⟩ := t
  exact find_func_in_tree_mem defs nm f h


theorem trace_owned (proj : MypyProject) (hWF : projWF proj) :
    ∀ fuel : Nat,
      (∀ (fullname : String) (cl : Nat) (cs : List CallFrame) (st : TraceState),
        linesOwned st.deps →
        linesOwned (resolve_and_trace proj fuel fullname cl cs st).deps)
      ∧ (∀ (cf : String) (cs : List CallFrame) (n : MExpr) (st : TraceState),
        linesOwned st.deps →
        (∀ l ∈ mexprLines n, ∃ r ∈ st.deps.referenced_symbols,
          r.file_path = cf ∧ r.start_line ≤ l ∧ l ≤ r.end_line) →
        linesOwned (walkNode proj fuel cf cs n st).deps)
      ∧ (∀ (cf : String) (cs : List CallFrame) (ns : List MExpr) (st : TraceState),
        linesOwned st.deps →
        (∀ l ∈ mexprListLines ns, ∃ r ∈ st.deps.referenced_symbols,
          r.file_path = cf ∧ r.start_line ≤ l ∧ l ≤ r.end_line) →
        linesOwned (walkList proj fuel cf cs ns st).deps) := by
  intro fuel
  induction fuel with
  | zero =>
    refine ⟨?_, ?_, ?_⟩
    · intro fullname cl cs st hst
      rw [resolve_and_trace]
      split
      · exact hst
      · split
        · exact hst
        · split
          · exact hst
          · dsimp only
            split
            · exact linesOwned_addCallStackIfAbsent _ _ _
                (linesOwned_add_symbol_reference _ _ _ _ _ hst)
            · exact linesOwned_addCallStackIfAbsent _ _ _
                (linesOwned_add_symbol_reference _ _ _ _ _ hst)
    · intro cf cs n st hst _
      simp only [walkNode]
      exact hst
    · intro cf cs ns st hst _
      simp only [walkList]
      exact hst
  | succ f ih =>
    obtain ⟨ihR, ihN, ihL⟩ := ih
    have hR : ∀ (fullname : String) (cl : Nat) (cs : List CallFrame) (st : TraceState),
        linesOwned st.deps →
        linesOwned (resolve_and_trace proj (f + 1) fullname cl cs st).deps := by
      intro fullname cl cs st hst
      rw [resolve_and_trace]
      split
      · exact hst
      · split
        · exact hst
        · split
          · exact hst
          · dsimp only
            split
            · rename_i hnv xr tp tm hres xt tt htree xf tf hfind
              apply ihL
              · exact linesOwned_addCallStackIfAbsent _ _ _
                  (linesOwned_add_symbol_reference _ _ _ _ _ hst)
              · intro l hl
                have htm : (tm, tt) ∈ proj.trees := lookupA_mem _ _ _ htree
                have hfw : funcWF tf :=
                  hWF (tm, tt) htm tf (find_func_in_tree_mem' tt _ tf hfind)
                refine ⟨⟨tp, fullname, (getFuncLines tf).1, (getFuncLines tf).2⟩, ?_, rfl,
                  (hfw l hl).1, (hfw l hl).2⟩
                rw [refs_addCallStackIfAbsent]
                exact List.mem_append_right _ (by simp)
            · exact linesOwned_addCallStackIfAbsent _ _ _
                (linesOwned_add_symbol_reference _ _ _ _ _ hst)
    have hC : ∀ (cf fn s : String) (l : Nat) (cs' : List CallFrame) (st' : TraceState),
        linesOwned st'.deps →
        (∃ r ∈ st'.deps.referenced_symbols,
          r.file_path = cf ∧ r.start_line ≤ l ∧ l ≤ r.end_line) →
        linesOwned (resolve_and_trace proj f fn l cs'
          ⟨st'.deps.add_reference cf l s, st'.visited⟩).deps := by
      intro cf fn s l cs' st' h1 h2
      exact ihR fn l cs' ⟨st'.deps.add_reference cf l s, st'.visited⟩
        (linesOwned_add_reference st'.deps cf s l h1 h2)
    have hCr : ∀ (cf fn s : String) (l : Nat) (cs' : List CallFrame) (st' : TraceState),
        ∀ r ∈ st'.deps.referenced_symbols,
          r ∈ (resolve_and_trace proj f fn l cs'
            ⟨st'.deps.add_reference cf l s, st'.visited⟩).deps.referenced_symbols := by
      intro cf fn s l cs' st' r hr
      exact ((trace_mono proj f).1 fn l cs'
        ⟨st'.deps.add_reference cf l s, st'.visited⟩).1.1 r hr
    refine ⟨hR, ?_, ?_⟩
    · intro cf cs n st hst hcov
      cases n with
      | call callee args line =>
        have hline : ∃ r ∈ st.deps.referenced_symbols,
            r.file_path = cf ∧ r.start_line ≤ line ∧ line ≤ r.end_line :=
          hcov line (by rw [mexprLines]; exact Finset.mem_insert_self _ _)
        have hcovC : ∀ l ∈ mexprLines callee, ∃ r ∈ st.deps.referenced_symbols,
            r.file_path = cf ∧ r.start_line ≤ l ∧ l ≤ r.end_line := fun l hl =>
          hcov l (by rw [mexprLines]; exact Finset.mem_insert_of_mem (Finset.mem_union_left _ hl))
        have hcovA : ∀ l ∈ mexprListLines args, ∃ r ∈ st.deps.referenced_symbols,
            r.file_path = cf ∧ r.start_line ≤ l ∧ l ≤ r.end_line := fun l hl =>
          hcov l (by rw [mexprLines]; exact Finset.mem_insert_of_mem (Finset.mem_union_right _ hl))
        clear hcov
        have hfinish : ∀ st1 : TraceState, linesOwned st1.deps →
            (∀ r ∈ st.deps.referenced_symbols, r ∈ st1.deps.referenced_symbols) →
            linesOwned (walkList proj f cf cs args (walkNode proj f cf cs callee st1)).deps := by
          intro st1 h1 h2
          apply ihL
          · apply ihN _ _ _ _ h1
            intro l hl
            obtain ⟨r, hr, hprop⟩ := hcovC l hl
            exact ⟨r, h2 r hr, hprop⟩
          · intro l hl
            obtain ⟨r, hr, hprop⟩ := hcovA l hl
            refine ⟨r, ?_, hprop⟩
            exact ((trace_mono proj f).2.1 cf cs callee st1).1.1 r (h2 r hr)
        simp only [walkNode]
        cases callee with
        | nameRef fn lline =>
          dsimp only
          split
          · exact hfinish _ (hC cf fn fn line cs st hst hline) (hCr cf fn fn line cs st)
          · exact hfinish st hst (fun r hr => hr)
        | memberRef fn nm recvType lline base =>
          dsimp only
          split
          · exact hfinish _ (hC cf fn fn line cs st hst hline) (hCr cf fn fn line cs st)
          · cases recvType with
            | some cls =>
              dsimp only
              exact hfinish _ (hC cf (cls ++ "." ++ nm) (cls ++ "." ++ nm) line cs st hst hline)
                (hCr cf (cls ++ "." ++ nm) (cls ++ "." ++ nm) line cs st)
            | none =>
              cases base with
              | nameRef bfn bl =>
                dsimp only
                split
                · exact hfinish _ (hC cf (bfn ++ "." ++ nm) (bfn ++ "." ++ nm) line cs st hst hline)
                    (hCr cf (bfn ++ "." ++ nm) (bfn ++ "." ++ nm) line cs st)
                · exact hfinish st hst (fun r hr => hr)
              | call c a l2 => exact hfinish st hst (fun r hr => hr)
              | memberRef a b c d e => exact hfinish st hst (fun r hr => hr)
              | compound ch => exact hfinish st hst (fun r hr => hr)
        | call c a l2 => exact hfinish st hst (fun r hr => hr)
        | compound ch => exact hfinish st hst (fun r hr => hr)
      | memberRef fullname nm recvType line base =>
        simp only [walkNode]
        have hcovB : ∀ l ∈ mexprLines base, ∃ r ∈ st.deps.referenced_symbols,
            r.file_path = cf ∧ r.start_line ≤ l ∧ l ≤ r.end_line := fun l hl =>
          hcov l (by rw [mexprLines]; exact Finset.mem_insert_of_mem hl)
        have hline : ∃ r ∈ st.deps.referenced_symbols,
            r.file_path = cf ∧ r.start_line ≤ line ∧ line ≤ r.end_line :=
          hcov line (by rw [mexprLines]; exact Finset.mem_insert_self _ _)
        clear hcov
        split
        · apply ihN _ _ _ ⟨st.deps.add_reference cf line fullname, st.visited⟩
            (linesOwned_add_reference st.deps cf fullname line hst hline)
          intro l hl
          exact hcovB l hl
        · exact ihN _ _ _ _ hst hcovB
      | nameRef fullname line =>
        simp only [walkNode]
        split
        · refine linesOwned_add_reference st.deps cf fullname line hst ?_
          exact hcov line (by rw [mexprLines]; exact Finset.mem_singleton_self _)
        · exact hst
      | compound children =>
        simp only [walkNode]
        apply ihL _ _ _ _ hst
        intro l hl
        exact hcov l (by rw [mexprLines]; exact hl)
    · intro cf cs ns st hst hcov
      cases ns with
      | nil =>
        simp only [walkList]
        exact hst
      | cons n rest =>
        simp only [walkList]
        apply ihL
        · apply ihN _ _ _ _ hst
          intro l hl
          exact hcov l (by rw [mexprListLines]; exact Finset.mem_union_left _ hl)
        · intro l hl
          obtain ⟨r, hr, hprop⟩ := hcov l
            (by rw [mexprListLines]; exact Finset.mem_union_right _ hl)
          refine ⟨r, ?_, hprop⟩
          exact ((trace_mono proj f).2.1 cf cs n st).1.1 r hr

/-- C4 counterexample: the claim as stated fails on the code.  A handler
whose end line is unknown gets the `start + 50` estimated range `[1, 51]`;
a name reference at line 60 inside its body is recorded via
`add_reference` into `referenced_files` although no symbol reference covers
line 60 — a line without an owning symbol. -/
theorem claim_C4_counterexample :
    ¬ linesOwned (analyze_endpoint
      ⟨true, [("app", "/r/app.py")], [],
        [("app", ⟨[.funcDef ⟨"handler", 1, none, [.nameRef "x" 60]⟩]⟩)], id⟩
      ⟨"/x", ["GET"], ⟨"handler", "app", "/r/app.py", 1, none⟩⟩) := by
  decide

/-- C4 (amended): for projects whose mypy trees are line-consistent — every
node line of a function body lies inside that function's recorded
`[start, end]` range as computed by `_get_func_lines` — every
`EndpointDependencies` value produced by `analyze_endpoint` satisfies the
ownership invariant: each line recorded for a file lies in the range of some
recorded `SymbolReference` of that file. -/
theorem claim_C4 (proj : MypyProject) (hWF : projWF proj)
    (ep : Endpoint) (fuel : Nat) :
    linesOwned (analyze_endpoint_fuel proj ep fuel) := by
  have hnil : ∀ (eid : String) (ms : List String) (p : String),
      linesOwned ⟨eid, ms, p, [], [], []⟩ := by
    intro eid ms p q hq
    simp at hq
  simp only [analyze_endpoint_fuel]
  split
  · exact hnil _ _ _
  · split
    · exact hnil _ _ _
    · split
      · exact linesOwned_add_symbol_reference _ _ _ _ _ (hnil _ _ _)
      · split
        · exact linesOwned_add_symbol_reference _ _ _ _ _ (hnil _ _ _)
        · split
          · exact linesOwned_add_symbol_reference _ _ _ _ _ (hnil _ _ _)
          · rename_i hmod xm hm xt tree htree xf func hfunc
            apply (trace_owned proj hWF fuel).2.2
            · exact linesOwned_add_symbol_reference _ _ _ _ _ (hnil _ _ _)
            · intro l hl
              have htm := lookupA_mem _ _ _ htree
              have hfw : funcWF func :=
                hWF (xm, tree) htm func (find_func_in_tree_mem' tree _ func hfunc)
              refine ⟨⟨proj.res ep.handler.file_path, ep.handler.name,
                (getFuncLines func).1, (getFuncLines func).2⟩, ?_, rfl,
                (hfw l hl).1, (hfw l hl).2⟩
              exact List.mem_append_right _ (by simp)

/-- C4 witness: a line-consistent two-module project; the analysis of its
endpoint satisfies the ownership invariant. -/
theorem claim_C4_witness :
    linesOwned (analyze_endpoint_fuel
      ⟨true, [("app", "/r/app.py"), ("svc", "/r/svc.py")], [],
        [("app", ⟨[.funcDef ⟨"handler", 10, some 20,
            [.call (.nameRef "svc.helper" 12) [] 12]⟩]⟩),
         ("svc", ⟨[.funcDef ⟨"helper", 5, some 9, []⟩]⟩)], id⟩
      ⟨"/x", ["GET"], ⟨"handler", "app", "/r/app.py", 10, some 20⟩⟩ 9) :=
  claim_C4
    ⟨true, [("app", "/r/app.py"), ("svc", "/r/svc.py")], [],
      [("app", ⟨[.funcDef ⟨"handler", 10, some 20,
          [.call (.nameRef "svc.helper" 12) [] 12]⟩]⟩),
       ("svc", ⟨[.funcDef ⟨"helper", 5, some 9, []⟩]⟩)], id⟩
    (by decide)
    ⟨"/x", ["GET"], ⟨"handler", "app", "/r/app.py", 10, some 20⟩⟩ 9
theorem card_sdiff_le_of_subset (U : Finset String) {v w : Finset String} (h : v ⊆ w) :
    (U \ w).card ≤ (U \ v).card :=
  Finset.card_le_card (Finset.sdiff_subset_sdiff (Finset.Subset.refl U) h)

theorem card_sdiff_insert_add_one_le (U v : Finset String) (x : String)
    (hxU : x ∈ U) (hxv : x ∉ v) :
    (U \ insert x v).card + 1 ≤ (U \ v).card := by
  have h1 : U \ insert x v ⊆ U \ v :=
    Finset.sdiff_subset_sdiff (Finset.Subset.refl U) (Finset.subset_insert x v)
  have h2 : x ∈ U \ v := Finset.mem_sdiff.mpr ⟨hxU, hxv⟩
  have h3 : x ∉ U \ insert x v := fun hx =>
    (Finset.mem_sdiff.mp hx).2 (Finset.mem_insert_self x v)
  have hlt : (U \ insert x v).card < (U \ v).card :=
    Finset.card_lt_card ((Finset.ssubset_iff_of_subset h1).mpr ⟨x, h2, h3⟩)
  omega

theorem subset_foldr_union (g : FuncDef → Finset String) :
    ∀ (l : List FuncDef) (x : FuncDef), x ∈ l →
      g x ⊆ l.foldr (fun a acc => g a ∪ acc) ∅ := by
  intro l
  induction l with
  | nil => intro x hx; simp at hx
  | cons a rest ih =>
    intro x hx
    rcases List.mem_cons.mp hx with h | h
    · subst h
      simp only [List.foldr]
      exact Finset.subset_union_left
    · simp only [List.foldr]
      exact (ih x h).trans Finset.subset_union_right

theorem le_foldr_add (g : FuncDef → Nat) :
    ∀ (l : List FuncDef) (x : FuncDef), x ∈ l →
      g x ≤ l.foldr (fun a acc => g a + acc) 0 := by
  intro l
  induction l with
  | nil => intro x hx; simp at hx
  | cons a rest ih =>
    intro x hx
    rcases List.mem_cons.mp hx with h | h
    · subst h; simp only [List.foldr]; omega
    · have := ih x h; simp only [List.foldr]; omega

theorem mem_projFuncs (proj : MypyProject) (tm : String) (tree : ModTree)
    (nm : String) (f : FuncDef) (h1 : lookupA proj.trees tm = some tree)
    (h2 : find_func_in_tree tree.defs nm = some f) : f ∈ projFuncs proj := by
  have htm : (tm, tree) ∈ proj.trees := lookupA_mem _ _ _ h1
  have hf : f ∈ treeFuncs tree := find_func_in_tree_mem' tree nm f h2
  exact List.mem_flatMap.mpr ⟨(tm, tree), htm, hf⟩

theorem callNamesList_subset_projUniv (proj : MypyProject) (f : FuncDef)
    (hf : f ∈ projFuncs proj) : callNamesList f.body ⊆ projUniv proj :=
  subset_foldr_union (fun g => callNamesList g.body) (projFuncs proj) f hf

theorem mexprListSize_le_treesSize (proj : MypyProject) (f : FuncDef)
    (hf : f ∈ projFuncs proj) : mexprListSize f.body ≤ treesSize proj :=
  le_foldr_add (fun g => mexprListSize g.body) (projFuncs proj) f hf

theorem mexprSize_pos : ∀ n : MExpr, 1 ≤ mexprSize n := by
  intro n
  cases n <;> simp only [mexprSize] <;> omega

theorem mexprListSize_pos : ∀ ns : List MExpr, 1 ≤ mexprListSize ns := by
  intro ns
  cases ns <;> simp only [mexprListSize] <;> omega

theorem trace_fuel_congr (proj : MypyProject) :
    ∀ f₁ : Nat,
      (∀ (f₂ : Nat) (fullname : String) (cl : Nat) (cs : List CallFrame) (st : TraceState),
        fullname ∈ projUniv proj →
        ((projUniv proj) \ st.visited).card * (treesSize proj + 1) ≤ f₁ →
        ((projUniv proj) \ st.visited).card * (treesSize proj + 1) ≤ f₂ →
        resolve_and_trace proj f₁ fullname cl cs st
          = resolve_and_trace proj f₂ fullname cl cs st)
      ∧ (∀ (f₂ : Nat) (cf : String) (cs : List CallFrame) (n : MExpr) (st : TraceState),
        callNames n ⊆ projUniv proj →
        ((projUniv proj) \ st.visited).card * (treesSize proj + 1) + mexprSize n ≤ f₁ →
        ((projUniv proj) \ st.visited).card * (treesSize proj + 1) + mexprSize n ≤ f₂ →
        walkNode proj f₁ cf cs n st = walkNode proj f₂ cf cs n st)
      ∧ (∀ (f₂ : Nat) (cf : String) (cs : List CallFrame) (ns : List MExpr) (st : TraceState),
        callNamesList ns ⊆ projUniv proj →
        ((projUniv proj) \ st.visited).card * (treesSize proj + 1) + mexprListSize ns ≤ f₁ →
        ((projUniv proj) \ st.visited).card * (treesSize proj + 1) + mexprListSize ns ≤ f₂ →
        walkList proj f₁ cf cs ns st = walkList proj f₂ cf cs ns st) := by
  intro f₁
  induction f₁ with
  | zero =>
    refine ⟨?_, ?_, ?_⟩
    · intro f₂ fullname cl cs st hU hb1 hb2
      by_cases hv : fullname ∈ st.visited
      · rw [resolve_and_trace_visited _ _ _ _ _ _ hv,
          resolve_and_trace_visited _ _ _ _ _ _ hv]
      · exfalso
        have hcpos : 0 < ((projUniv proj) \ st.visited).card :=
          Finset.card_pos.mpr ⟨fullname, Finset.mem_sdiff.mpr ⟨hU, hv⟩⟩
        have hSmul : 1 * (treesSize proj + 1)
            ≤ ((projUniv proj) \ st.visited).card * (treesSize proj + 1) :=
          Nat.mul_le_mul_right _ hcpos
        omega
    · intro f₂ cf cs n st hsub hb1 hb2
      exfalso
      have := mexprSize_pos n
      omega
    · intro f₂ cf cs ns st hsub hb1 hb2
      exfalso
      have := mexprListSize_pos ns
      omega
  | succ f ih =>
    obtain ⟨ihR, ihN, ihL⟩ := ih
    refine ⟨?_, ?_, ?_⟩
    · -- resolve_and_trace
      intro f₂ fullname cl cs st hU hb1 hb2
      by_cases hv : fullname ∈ st.visited
      · rw [resolve_and_trace_visited _ _ _ _ _ _ hv,
          resolve_and_trace_visited _ _ _ _ _ _ hv]
      · have hcpos : 0 < ((projUniv proj) \ st.visited).card :=
          Finset.card_pos.mpr ⟨fullname, Finset.mem_sdiff.mpr ⟨hU, hv⟩⟩
        have hSmul : 1 * (treesSize proj + 1)
            ≤ ((projUniv proj) \ st.visited).card * (treesSize proj + 1) :=
          Nat.mul_le_mul_right _ hcpos
        cases f₂ with
        | zero => exfalso; omega
        | succ g₂ =>
          have hcins : ((projUniv proj) \ insert fullname st.visited).card + 1
              ≤ ((projUniv proj) \ st.visited).card :=
            card_sdiff_insert_add_one_le _ _ _ hU hv
          have hmulins : (((projUniv proj) \ insert fullname st.visited).card + 1)
                * (treesSize proj + 1)
              ≤ ((projUniv proj) \ st.visited).card * (treesSize proj + 1) :=
            Nat.mul_le_mul_right _ hcins
          have hexp : (((projUniv proj) \ insert fullname st.visited).card + 1)
                * (treesSize proj + 1)
              = ((projUniv proj) \ insert fullname st.visited).card * (treesSize proj + 1)
                + (treesSize proj + 1) := by ring
          simp only [resolve_and_trace]
          rw [if_neg hv, if_neg hv]
          try dsimp only
          split
          · rfl
          · rename_i pr tp tm hres
            split
            · rfl
            · rename_i tree htree
              split
              · rename_i tf hfind
                have hfp : tf ∈ projFuncs proj := mem_projFuncs proj tm tree _ tf htree hfind
                have hsubB := callNamesList_subset_projUniv proj tf hfp
                have hsizeB := mexprListSize_le_treesSize proj tf hfp
                try dsimp only
                refine ihL g₂ _ _ _ _ hsubB ?_ ?_
                · dsimp only; omega
                · dsimp only; omega
              · rfl
    · -- walkNode
      intro f₂ cf cs n st hsub hb1 hb2
      have hszn := mexprSize_pos n
      cases f₂ with
      | zero => exfalso; omega
      | succ g₂ =>
        cases n with
        | call callee args line =>
          simp only [walkNode]
          simp only [mexprSize] at hb1 hb2
          have hsc := mexprSize_pos callee
          have hsa := mexprListSize_pos args
          have hsubC : callNames callee ⊆ projUniv proj := by
            intro x hx
            apply hsub
            simp only [callNames]
            exact Finset.mem_union_left _ (Finset.mem_union_right _ hx)
          have hsubA : callNamesList args ⊆ projUniv proj := by
            intro x hx
            apply hsub
            simp only [callNames]
            exact Finset.mem_union_right _ hx
          have hfinish : ∀ s1 : TraceState, st.visited ⊆ s1.visited →
              walkList proj f cf cs args (walkNode proj f cf cs callee s1)
                = walkList proj g₂ cf cs args (walkNode proj g₂ cf cs callee s1) := by
            intro s1 hs1
            have hc1 : ((projUniv proj) \ s1.visited).card
                ≤ ((projUniv proj) \ st.visited).card := card_sdiff_le_of_subset _ hs1
            have hmul1 : ((projUniv proj) \ s1.visited).card * (treesSize proj + 1)
                ≤ ((projUniv proj) \ st.visited).card * (treesSize proj + 1) :=
              Nat.mul_le_mul_right _ hc1
            have hN : walkNode proj f cf cs callee s1 = walkNode proj g₂ cf cs callee s1 :=
              ihN g₂ cf cs callee s1 hsubC (by omega) (by omega)
            rw [hN]
            have hs2 : s1.visited ⊆ (walkNode proj g₂ cf cs callee s1).visited :=
              ((trace_mono proj g₂).2.1 cf cs callee s1).2
            have hc2 : ((projUniv proj) \ (walkNode proj g₂ cf cs callee s1).visited).card
                ≤ ((projUniv proj) \ s1.visited).card := card_sdiff_le_of_subset _ hs2
            have hmul2 : ((projUniv proj) \ (walkNode proj g₂ cf cs callee s1).visited).card
                  * (treesSize proj + 1)
                ≤ ((projUniv proj) \ s1.visited).card * (treesSize proj + 1) :=
              Nat.mul_le_mul_right _ hc2
            exact ihL g₂ cf cs args _ hsubA (by omega) (by omega)
          cases callee with
          | nameRef fullname l0 =>
            dsimp only
            split
            · rename_i hne
              have hmemU : fullname ∈ projUniv proj := by
                apply hsub
                simp [callNames, hne]
              have hR : resolve_and_trace proj f fullname line cs
                    ⟨st.deps.add_reference cf line fullname, st.visited⟩
                  = resolve_and_trace proj g₂ fullname line cs
                    ⟨st.deps.add_reference cf line fullname, st.visited⟩ :=
                ihR g₂ fullname line cs _ hmemU (by dsimp only; omega) (by dsimp only; omega)
              rw [hR]
              exact hfinish _
                ((trace_mono proj g₂).1 fullname line cs
                  ⟨st.deps.add_reference cf line fullname, st.visited⟩).2
            · exact hfinish st (fun _ h => h)
          | memberRef mfn mnm mrecv ml mbase =>
            dsimp only
            split
            · rename_i hne
              have hmemU : mfn ∈ projUniv proj := by
                apply hsub
                simp [callNames, hne]
              have hR : resolve_and_trace proj f mfn line cs
                    ⟨st.deps.add_reference cf line mfn, st.visited⟩
                  = resolve_and_trace proj g₂ mfn line cs
                    ⟨st.deps.add_reference cf line mfn, st.visited⟩ :=
                ihR g₂ mfn line cs _ hmemU (by dsimp only; omega) (by dsimp only; omega)
              rw [hR]
              exact hfinish _
                ((trace_mono proj g₂).1 mfn line cs
                  ⟨st.deps.add_reference cf line mfn, st.visited⟩).2
            · rename_i hne
              cases mrecv with
              | some cls =>
                dsimp only
                have hmemU : cls ++ "." ++ mnm ∈ projUniv proj := by
                  apply hsub
                  simp [callNames, hne]
                have hR : resolve_and_trace proj f (cls ++ "." ++ mnm) line cs
                      ⟨st.deps.add_reference cf line (cls ++ "." ++ mnm), st.visited⟩
                    = resolve_and_trace proj g₂ (cls ++ "." ++ mnm) line cs
                      ⟨st.deps.add_reference cf line (cls ++ "." ++ mnm), st.visited⟩ :=
                  ihR g₂ (cls ++ "." ++ mnm) line cs _ hmemU
                    (by dsimp only; omega) (by dsimp only; omega)
                rw [hR]
                exact hfinish _
                  ((trace_mono proj g₂).1 (cls ++ "." ++ mnm) line cs
                    ⟨st.deps.add_reference cf line (cls ++ "." ++ mnm), st.visited⟩).2
              | none =>
                cases mbase with
                | nameRef bfn bl =>
                  dsimp only
                  split
                  · rename_i hbne
                    have hmemU : bfn ++ "." ++ mnm ∈ projUniv proj := by
                      apply hsub
                      simp [callNames, hne, hbne]
                    have hR : resolve_and_trace proj f (bfn ++ "." ++ mnm) line cs
                          ⟨st.deps.add_reference cf line (bfn ++ "." ++ mnm), st.visited⟩
                        = resolve_and_trace proj g₂ (bfn ++ "." ++ mnm) line cs
                          ⟨st.deps.add_reference cf line (bfn ++ "." ++ mnm), st.visited⟩ :=
                      ihR g₂ (bfn ++ "." ++ mnm) line cs _ hmemU
                        (by dsimp only; omega) (by dsimp only; omega)
                    rw [hR]
                    exact hfinish _
                      ((trace_mono proj g₂).1 (bfn ++ "." ++ mnm) line cs
                        ⟨st.deps.add_reference cf line (bfn ++ "." ++ mnm), st.visited⟩).2
                  · exact hfinish st (fun _ h => h)
                | call c2 a2 l2 => exact hfinish st (fun _ h => h)
                | memberRef a2 b2 c2 d2 e2 => exact hfinish st (fun _ h => h)
                | compound ch2 => exact hfinish st (fun _ h => h)
          | call c2 a2 l2 => exact hfinish st (fun _ h => h)
          | compound ch2 => exact hfinish st (fun _ h => h)
        | memberRef mfn mnm mrecv mline mbase =>
          simp only [walkNode]
          simp only [mexprSize] at hb1 hb2
          simp only [callNames] at hsub
          split
          · exact ihN g₂ cf cs mbase _ hsub (by dsimp only; omega) (by dsimp only; omega)
          · exact ihN g₂ cf cs mbase st hsub (by omega) (by omega)
        | nameRef mfn mline =>
          simp only [walkNode]
        | compound children =>
          simp only [walkNode]
          simp only [mexprSize] at hb1 hb2
          simp only [callNames] at hsub
          exact ihL g₂ cf cs children st hsub (by omega) (by omega)
    · -- walkList
      intro f₂ cf cs ns st hsub hb1 hb2
      have hszl := mexprListSize_pos ns
      cases f₂ with
      | zero => exfalso; omega
      | succ g₂ =>
        cases ns with
        | nil => simp only [walkList]
        | cons n rest =>
          simp only [walkList]
          simp only [mexprListSize] at hb1 hb2
          have hsubN : callNames n ⊆ projUniv proj := by
            intro x hx
            apply hsub
            simp only [callNamesList]
            exact Finset.mem_union_left _ hx
          have hsubR : callNamesList rest ⊆ projUniv proj := by
            intro x hx
            apply hsub
            simp only [callNamesList]
            exact Finset.mem_union_right _ hx
          have hszr := mexprListSize_pos rest
          have hszn := mexprSize_pos n
          have hN : walkNode proj f cf cs n st = walkNode proj g₂ cf cs n st :=
            ihN g₂ cf cs n st hsubN (by omega) (by omega)
          rw [hN]
          have hs2 : st.visited ⊆ (walkNode proj g₂ cf cs n st).visited :=
            ((trace_mono proj g₂).2.1 cf cs n st).2
          have hc2 : ((projUniv proj) \ (walkNode proj g₂ cf cs n st).visited).card
              ≤ ((projUniv proj) \ st.visited).card := card_sdiff_le_of_subset _ hs2
          have hmul2 : ((projUniv proj) \ (walkNode proj g₂ cf cs n st).visited).card
                * (treesSize proj + 1)
              ≤ ((projUniv proj) \ st.visited).card * (treesSize proj + 1) :=
            Nat.mul_le_mul_right _ hc2
          exact ihL g₂ cf cs rest _ hsubR (by omega) (by omega)

/-- C2: tracing terminates — the visited set only grows, each descent consumes
a fresh fully-qualified name from the finite universe of call targets, and the
walk between descents is structural; hence past the computable bound
`traceFuel` the fuel-indexed `analyze_endpoint_fuel` has stabilised and any
further fuel returns exactly `analyze_endpoint`'s value, including on projects
with mutually recursive or self-referential symbols. -/
theorem claim_C2 (proj : MypyProject) (ep : Endpoint) (extra : Nat) :
    analyze_endpoint_fuel proj ep (traceFuel proj + extra) = analyze_endpoint proj ep := by
  simp only [analyze_endpoint, analyze_endpoint_fuel]
  split
  · rfl
  · split
    · rfl
    · split
      · rfl
      · split
        · rfl
        · split
          · rfl
          · rename_i hmod xm hm xt tree htree xf func hfunc
            have hfp : func ∈ projFuncs proj :=
              mem_projFuncs proj xm tree _ func htree hfunc
            have hsubB := callNamesList_subset_projUniv proj func hfp
            have hsizeB := mexprListSize_le_treesSize proj func hfp
            congr 1
            refine (trace_fuel_congr proj (traceFuel proj + extra)).2.2 (traceFuel proj)
              _ _ _ _ hsubB ?_ ?_
            · dsimp only
              rw [Finset.sdiff_empty]
              simp only [traceFuel]
              omega
            · dsimp only
              rw [Finset.sdiff_empty]
              simp only [traceFuel]
              omega
theorem getLastD_append_singleton {α : Type} (a : α) :
    ∀ (l : List α) (d : α), (l ++ [a]).getLastD d = a := by
  intro l
  induction l with
  | nil => intro d; rfl
  | cons x xs ih =>
    intro d
    rw [List.cons_append, List.getLastD_cons]
    exact ih x

theorem reaches_snoc (g : DependencyGraph) {a b c : String}
    (h : Reaches g a b) : c ∈ g.importsOf b → Reaches g a c := by
  induction h with
  | base hab => intro hc; exact .step hab (.base hc)
  | step hab hr ih => intro hc; exact .step hab (ih hc)

theorem upstreamAux_sound (g : DependencyGraph) (m : String) :
    ∀ (fuel : Nat) (wl : List String) (visited : Finset String),
      (∀ w ∈ wl, Reaches g m w) → (∀ v ∈ visited, Reaches g m v) →
      ∀ x ∈ upstreamAux g fuel wl visited, Reaches g m x := by
  intro fuel
  induction fuel with
  | zero =>
    intro wl visited _ hv x hx
    simp only [upstreamAux] at hx
    exact hv x hx
  | succ f ih =>
    intro wl visited hw hv x hx
    cases wl with
    | nil =>
      simp only [upstreamAux] at hx
      exact hv x hx
    | cons current rest =>
      simp only [upstreamAux] at hx
      split at hx
      · exact ih rest visited (fun w hw' => hw w (List.mem_cons_of_mem _ hw')) hv x hx
      · rename_i hcur
        have hcr : Reaches g m current := hw current (List.mem_cons_self current rest)
        refine ih _ _ ?_ ?_ x hx
        · intro w hw'
          rcases List.mem_append.mp hw' with h | h
          · exact reaches_snoc g hcr (List.mem_filter.mp h).1
          · exact hw w (List.mem_cons_of_mem _ h)
        · intro v hvv
          rcases Finset.mem_insert.mp hvv with h | h
          · exact h ▸ hcr
          · exact hv v h

theorem get_upstream_modules_sound (g : DependencyGraph) (m x : String)
    (hx : x ∈ g.get_upstream_modules m) : Reaches g m x := by
  refine upstreamAux_sound g m _ _ _ ?_ ?_ x hx
  · intro w hw; exact .base hw
  · intro v hv; exact absurd hv (Finset.not_mem_empty v)

theorem mem_nodeUniv_of_import :
    ∀ (l : List (String × List String)) (k : String) (xs : List String),
      (k, xs) ∈ l → ∀ x ∈ xs,
        x ∈ l.foldr (fun kv acc => insert kv.1 (kv.2.toFinset ∪ acc)) ∅ := by
  intro l
  induction l with
  | nil => intro k xs h; simp at h
  | cons kv rest ih =>
    intro k xs h x hx
    simp only [List.foldr]
    rcases List.mem_cons.mp h with h | h
    · rw [← h]
      exact Finset.mem_insert_of_mem (Finset.mem_union_left _ (List.mem_toFinset.mpr hx))
    · exact Finset.mem_insert_of_mem (Finset.mem_union_right _ (ih k xs h x hx))

theorem importsOf_subset_nodeUniv (g : DependencyGraph) (m x : String)
    (hx : x ∈ g.importsOf m) : x ∈ g.nodeUniv := by
  unfold DependencyGraph.importsOf at hx
  unfold DependencyGraph.nodeUniv
  cases hlook : lookupA g.import_map m with
  | none => rw [hlook] at hx; simp at hx
  | some xs =>
    rw [hlook] at hx
    exact mem_nodeUniv_of_import g.import_map m xs (lookupA_mem _ _ _ hlook) x hx

theorem nreach_of_reaches (g : DependencyGraph) {a b : String}
    (h : Reaches g a b) : NReach g ∅ a b := by
  induction h with
  | base hab => exact .base hab
  | step hab _ ih => exact .step hab (Finset.not_mem_empty _) ih

theorem nreach_repair (g : DependencyGraph) (tgt : String)
    {visited visited' : Finset String} {z : String}
    (_hsub : visited ⊆ visited') (h : NReach g visited z tgt) :
    ∃ w, NReach g visited' w tgt ∧ (w = z ∨ (w ∈ visited' ∧ w ∉ visited)) := by
  induction h with
  | base hab => exact ⟨_, .base hab, Or.inl rfl⟩
  | step hab hbv hn ih =>
    obtain ⟨w, hw, hcase⟩ := ih
    rcases hcase with hcase | hcase
    · subst hcase
      by_cases hb' : w ∈ visited'
      · exact ⟨w, hw, Or.inr ⟨hb', hbv⟩⟩
      · exact ⟨_, .step hab hb' hw, Or.inl rfl⟩
    · exact ⟨w, hw, Or.inr hcase⟩

theorem bfsNbrs_some_of_mem (tgt : String) (path : List String) :
    ∀ (nbrs : List String) (visited : Finset String) (adds : List (List String)),
      tgt ∈ nbrs → ∃ r, (bfsNbrs tgt path nbrs visited adds).1 = some r := by
  intro nbrs
  induction nbrs with
  | nil => intro visited adds h; simp at h
  | cons nb rest ih =>
    intro visited adds h
    simp only [bfsNbrs]
    by_cases hto : nb = tgt
    · rw [if_pos hto]; exact ⟨_, rfl⟩
    · rw [if_neg hto]
      have hmem : tgt ∈ rest := by
        rcases List.mem_cons.mp h with h' | h'
        · exact absurd h'.symm hto
        · exact h'
      by_cases hv : nb ∈ visited
      · rw [if_pos hv]; exact ih _ _ hmem
      · rw [if_neg hv]; exact ih _ _ hmem

theorem bfsNbrs_found_not_nil (tgt : String) :
    ∀ (nbrs path : List String) (visited : Finset String)
      (adds : List (List String)) (r : List String) (v2 : Finset String)
      (a2 : List (List String)),
      bfsNbrs tgt path nbrs visited adds = (some r, v2, a2) → r ≠ [] := by
  intro nbrs
  induction nbrs with
  | nil => intro path visited adds r v2 a2 h; simp [bfsNbrs] at h
  | cons nb rest ih =>
    intro path visited adds r v2 a2 h
    simp only [bfsNbrs] at h
    split at h
    · injection h with h1 h2
      injection h1 with h1
      rw [← h1]
      simp
    · split at h
      · exact ih _ _ _ _ _ _ h
      · exact ih _ _ _ _ _ _ h

theorem bfsNbrs_none_spec (tgt : String) (path : List String) (U : Finset String) :
    ∀ (nbrs : List String) (visited : Finset String) (adds : List (List String))
      (visited' : Finset String) (adds' : List (List String)),
      bfsNbrs tgt path nbrs visited adds = (none, visited', adds') →
      tgt ∉ nbrs
      ∧ visited ⊆ visited'
      ∧ (∀ q ∈ adds, q ∈ adds')
      ∧ (∀ x ∈ nbrs, x ∉ visited → x ∈ visited')
      ∧ (∀ v ∈ visited', v ∈ visited ∨ (v ∈ nbrs ∧ ∃ q ∈ adds', q.getLastD "" = v))
      ∧ ((∀ x ∈ nbrs, x ∈ U) →
          adds'.length + (U \ visited').card ≤ adds.length + (U \ visited).card) := by
  intro nbrs
  induction nbrs with
  | nil =>
    intro visited adds visited' adds' h
    simp only [bfsNbrs] at h
    injection h with h1 h23
    injection h23 with h2 h3
    subst h2; subst h3
    refine ⟨List.not_mem_nil tgt, fun _ hv => hv, fun q hq => hq, ?_, ?_, ?_⟩
    · intro x hx; simp at hx
    · intro v hv; exact Or.inl hv
    · intro _; omega
  | cons nb rest ih =>
    intro visited adds visited' adds' h
    simp only [bfsNbrs] at h
    split at h
    · simp at h
    · rename_i hto
      split at h
      · rename_i hv
        obtain ⟨h1, h2, h3, h4, h5, h6⟩ := ih visited adds visited' adds' h
        refine ⟨?_, h2, h3, ?_, ?_, ?_⟩
        · intro hmem
          rcases List.mem_cons.mp hmem with h' | h'
          · exact hto h'.symm
          · exact h1 h'
        · intro x hx hxv
          rcases List.mem_cons.mp hx with h' | h'
          · exact absurd (h' ▸ hv) hxv
          · exact h4 x h' hxv
        · intro v hvv
          rcases h5 v hvv with h' | h'
          · exact Or.inl h'
          · exact Or.inr ⟨List.mem_cons_of_mem _ h'.1, h'.2⟩
        · intro hU
          exact h6 (fun x hx => hU x (List.mem_cons_of_mem _ hx))
      · rename_i hv
        obtain ⟨h1, h2, h3, h4, h5, h6⟩ :=
          ih (insert nb visited) (adds ++ [path ++ [nb]]) visited' adds' h
        refine ⟨?_, ?_, ?_, ?_, ?_, ?_⟩
        · intro hmem
          rcases List.mem_cons.mp hmem with h' | h'
          · exact hto h'.symm
          · exact h1 h'
        · exact (Finset.subset_insert nb visited).trans h2
        · intro q hq
          exact h3 q (List.mem_append_left _ hq)
        · intro x hx hxv
          rcases List.mem_cons.mp hx with h' | h'
          · exact h' ▸ h2 (Finset.mem_insert_self nb visited)
          · by_cases hxn : x = nb
            · exact hxn ▸ h2 (Finset.mem_insert_self nb visited)
            · refine h4 x h' ?_
              intro hmem
              rcases Finset.mem_insert.mp hmem with h'' | h''
              · exact hxn h''
              · exact hxv h''
        · intro v hvv
          rcases h5 v hvv with h' | h'
          · rcases Finset.mem_insert.mp h' with h'' | h''
            · refine Or.inr ⟨h'' ▸ List.mem_cons_self nb rest, path ++ [nb], ?_, ?_⟩
              · exact h3 _ (List.mem_append_right _ (List.mem_singleton.mpr rfl))
              · rw [getLastD_append_singleton, h'']
            · exact Or.inl h''
          · exact Or.inr ⟨List.mem_cons_of_mem _ h'.1, h'.2⟩
        · intro hU
          have hnbU : nb ∈ U := hU nb (List.mem_cons_self nb rest)
          have h6' := h6 (fun x hx => hU x (List.mem_cons_of_mem _ hx))
          have hcard : (U \ insert nb visited).card + 1 ≤ (U \ visited).card :=
            card_sdiff_insert_add_one_le U visited nb hnbU hv
          simp only [List.length_append, List.length_cons, List.length_nil] at h6'
          omega

theorem bfsAux_some_not_nil (g : DependencyGraph) (tgt : String) :
    ∀ (fuel : Nat) (queue : List (List String)) (visited : Finset String)
      (p : List String),
      bfsAux g tgt fuel queue visited = some p → p ≠ [] := by
  intro fuel
  induction fuel with
  | zero => intro queue visited p h; simp [bfsAux] at h
  | succ f ih =>
    intro queue visited p h
    cases queue with
    | nil => simp [bfsAux] at h
    | cons path rest =>
      simp only [bfsAux] at h
      split at h
      · rename_i found v2 a2 hbfs
        injection h with h1
        exact h1 ▸ bfsNbrs_found_not_nil tgt _ _ _ _ _ _ _ hbfs
      · exact ih _ _ _ h

theorem bfsAux_complete (g : DependencyGraph) (tgt : String) :
    ∀ (fuel : Nat) (queue : List (List String)) (visited : Finset String),
      tgt ∉ visited →
      (∃ p ∈ queue, NReach g visited (p.getLastD "") tgt) →
      queue.length + (g.nodeUniv \ visited).card < fuel →
      (bfsAux g tgt fuel queue visited).isSome = true := by
  intro fuel
  induction fuel with
  | zero => intro queue visited _ _ hm; omega
  | succ f ih =>
    intro queue visited hto hex hm
    obtain ⟨p0, hp0q, hp0r⟩ := hex
    cases queue with
    | nil => simp at hp0q
    | cons path rest =>
      simp only [bfsAux]
      obtain ⟨⟨r, visited', adds1⟩, hbfs⟩ :
          ∃ t, bfsNbrs tgt path (g.importsOf (path.getLastD "")) visited [] = t :=
        ⟨_, rfl⟩
      rw [hbfs]
      cases r with
      | some found => rfl
      | none =>
        obtain ⟨hton, hsub, _, hfresh, hentry, hcount⟩ :=
          bfsNbrs_none_spec tgt path g.nodeUniv _ _ _ _ _ hbfs
        refine ih (rest ++ adds1) visited' ?_ ?_ ?_
        · intro hto'
          rcases hentry tgt hto' with h | h
          · exact hto h
          · exact hton h.1
        · rcases List.mem_cons.mp hp0q with rfl | hp
          · cases hp0r with
            | base hedge =>
              exfalso
              obtain ⟨r2, hr2⟩ :=
                bfsNbrs_some_of_mem tgt p0 (g.importsOf (p0.getLastD "")) visited [] hedge
              rw [hbfs] at hr2
              simp at hr2
            | step hedge hxv hNx =>
              rename_i x
              have hxvis : x ∈ visited' := hfresh x hedge hxv
              obtain ⟨z, hz, hzc⟩ := nreach_repair g tgt hsub hNx
              have hzf : z ∈ visited' ∧ z ∉ visited := by
                rcases hzc with h' | h'
                · exact ⟨h' ▸ hxvis, h' ▸ hxv⟩
                · exact h'
              rcases hentry z hzf.1 with h' | h'
              · exact absurd h' hzf.2
              · obtain ⟨_, q, hq, hql⟩ := h'
                exact ⟨q, List.mem_append_right rest hq, by rw [hql]; exact hz⟩
          · obtain ⟨z, hz, hzc⟩ := nreach_repair g tgt hsub hp0r
            rcases hzc with h' | h'
            · exact ⟨p0, List.mem_append_left _ hp, by rw [h'] at hz; exact hz⟩
            · rcases hentry z h'.1 with h'' | h''
              · exact absurd h'' h'.2
              · obtain ⟨_, q, hq, hql⟩ := h''
                exact ⟨q, List.mem_append_right rest hq, by rw [hql]; exact hz⟩
        · have h6 := hcount (fun x hx => importsOf_subset_nodeUniv g _ x hx)
          simp only [List.length_nil] at h6
          simp only [List.length_cons] at hm
          simp only [List.length_append]
          omega

theorem get_shortest_path_of_reaches (g : DependencyGraph) (a b : String)
    (h : Reaches g a b) : ∃ p, g.get_shortest_path a b = some p ∧ p ≠ [] := by
  by_cases hab : a = b
  · exact ⟨[a], by simp [DependencyGraph.get_shortest_path, hab], by simp⟩
  · have hsome : (bfsAux g b (g.nodeUniv.card + 2) [[a]] {a}).isSome = true := by
      refine bfsAux_complete g b _ _ _ ?_ ?_ ?_
      · intro hb
        exact hab (Finset.mem_singleton.mp hb).symm
      · obtain ⟨z, hz, hzc⟩ :=
          nreach_repair g b (Finset.empty_subset {a}) (nreach_of_reaches g h)
        have hza : z = a := by
          rcases hzc with h' | h'
          · exact h'
          · exact Finset.mem_singleton.mp h'.1
        exact ⟨[a], by simp, by rw [← hza] at hz ⊢; exact hz⟩
      · have hc : (g.nodeUniv \ {a}).card ≤ g.nodeUniv.card :=
          Finset.card_le_card (Finset.sdiff_subset)
        simp only [List.length_cons, List.length_nil]
        omega
    obtain ⟨p, hp⟩ := Option.isSome_iff_exists.mp hsome
    refine ⟨p, ?_, bfsAux_some_not_nil g b _ _ _ _ hp⟩
    simp only [DependencyGraph.get_shortest_path, if_neg hab]
    exact hp

/-- C8: under the import backend, for an endpoint whose (known) handler module
differs from the changed module: a direct import of the changed module or one
of its parent-package prefixes yields a MEDIUM finding whose chain is
`[handler, imported]`; otherwise, with transitive tracking enabled, membership
in the transitive-imports set yields a LOW finding whose dependency chain is
the BFS shortest path (which the reachability of upstream members guarantees
to exist and be non-empty, so the `[handler, module]` fallback is never used);
otherwise the check produces no finding. -/
theorem claim_C8 (m : ChangeMapper) (ep : Endpoint) (cm : String) (df : DiffFile)
    (hne : ep.handler.module ≠ "") (hdiff : ep.handler.module ≠ cm) :
    ((∃ md ∈ modulesToCheck cm,
        md ∈ m.dep_graph.get_modules_imported_by ep.handler.module) →
      ∃ md ae, check_module_dependency m ep cm df = some ae
        ∧ ae.confidence = .medium
        ∧ ae.dependency_chain = [ep.handler.module, md]
        ∧ md ∈ modulesToCheck cm
        ∧ md ∈ m.dep_graph.get_modules_imported_by ep.handler.module)
    ∧ ((∀ md ∈ modulesToCheck cm,
          md ∉ m.dep_graph.get_modules_imported_by ep.handler.module) →
        m.config.track_transitive = true →
        (∃ md ∈ modulesToCheck cm,
          md ∈ m.dep_graph.get_upstream_modules ep.handler.module) →
      ∃ md p ae, check_module_dependency m ep cm df = some ae
        ∧ ae.confidence = .low
        ∧ m.dep_graph.get_shortest_path ep.handler.module md = some p
        ∧ ae.dependency_chain = p
        ∧ md ∈ modulesToCheck cm
        ∧ md ∈ m.dep_graph.get_upstream_modules ep.handler.module)
    ∧ ((∀ md ∈ modulesToCheck cm,
          md ∉ m.dep_graph.get_modules_imported_by ep.handler.module) →
        (m.config.track_transitive = false
          ∨ ∀ md ∈ modulesToCheck cm,
              md ∉ m.dep_graph.get_upstream_modules ep.handler.module) →
      check_module_dependency m ep cm df = none) := by
  have hcond : ¬ (ep.handler.module = "" ∨ ep.handler.module = cm) :=
    not_or.mpr ⟨hne, hdiff⟩
  refine ⟨?_, ?_, ?_⟩
  · intro hex
    obtain ⟨md0, hmd0, hmem0⟩ := hex
    obtain ⟨md, hfind⟩ :
        ∃ md, (modulesToCheck cm).find?
            (fun md => (m.dep_graph.get_modules_imported_by ep.handler.module).contains md)
          = some md := by
      refine Option.isSome_iff_exists.mp (List.find?_isSome.mpr ⟨md0, hmd0, ?_⟩)
      simpa using hmem0
    have hmdmem : md ∈ m.dep_graph.get_modules_imported_by ep.handler.module := by
      have := List.find?_some hfind
      simpa using this
    simp only [check_module_dependency]
    rw [if_neg hcond, hfind]
    exact ⟨md, _, rfl, rfl, rfl, List.mem_of_find?_eq_some hfind, hmdmem⟩
  · intro hdir htrack hexu
    obtain ⟨md0, hmd0, hmem0⟩ := hexu
    have hfnone : (modulesToCheck cm).find?
        (fun md => (m.dep_graph.get_modules_imported_by ep.handler.module).contains md)
      = none := by
      refine List.find?_eq_none.mpr ?_
      intro x hx
      simpa using hdir x hx
    obtain ⟨md, hfind2⟩ :
        ∃ md, (modulesToCheck cm).find?
            (fun md => decide (md ∈ m.dep_graph.get_upstream_modules ep.handler.module))
          = some md :=
      Option.isSome_iff_exists.mp
        (List.find?_isSome.mpr ⟨md0, hmd0, decide_eq_true hmem0⟩)
    have hb2 := List.find?_some hfind2
    have hmdup : md ∈ m.dep_graph.get_upstream_modules ep.handler.module :=
      of_decide_eq_true hb2
    have hpath : ∃ p, m.dep_graph.get_shortest_path ep.handler.module md = some p
        ∧ p ≠ [] := by
      by_cases he : ep.handler.module = md
      · exact ⟨[ep.handler.module],
          by simp [DependencyGraph.get_shortest_path, he], by simp⟩
      · exact get_shortest_path_of_reaches _ _ _
          (get_upstream_modules_sound _ _ _ hmdup)
    obtain ⟨p, hp, hpn⟩ := hpath
    simp only [check_module_dependency]
    rw [if_neg hcond, hfnone, htrack, if_pos rfl, hfind2]
    dsimp only
    rw [hp]
    cases p with
    | nil => exact absurd rfl hpn
    | cons c cs =>
      exact ⟨md, c :: cs, _, rfl, rfl, hp, rfl,
        List.mem_of_find?_eq_some hfind2, hmdup⟩
  · intro hdir hdisj
    have hfnone : (modulesToCheck cm).find?
        (fun md => (m.dep_graph.get_modules_imported_by ep.handler.module).contains md)
      = none := by
      refine List.find?_eq_none.mpr ?_
      intro x hx
      simpa using hdir x hx
    simp only [check_module_dependency]
    rw [if_neg hcond, hfnone]
    rcases hdisj with htf | hnoup
    · rw [htf, if_neg (by simp)]
    · cases hct : m.config.track_transitive with
      | false => rw [if_neg (by simp [hct])]
      | true =>
        rw [if_pos (by simp [hct])]
        have hfn2 : (modulesToCheck cm).find?
            (fun md => decide (md ∈ m.dep_graph.get_upstream_modules ep.handler.module))
          = none := by
          refine List.find?_eq_none.mpr ?_
          intro x hx
          simpa using hnoup x hx
        rw [hfn2]

/-- C8 witness: a three-module chain `app → b → c` with transitive tracking
on; changing `c` makes the endpoint in `app` a LOW finding whose dependency
chain is the BFS shortest path. -/
theorem claim_C8_witness :
    ∃ md p ae,
      check_module_dependency
        ⟨⟨[], []⟩, ⟨true, 0⟩, .importGraph,
          ⟨[("app", ["b"]), ("b", ["c"])], fun _ => none⟩, [], [], id⟩
        ⟨"/x", ["GET"], ⟨"h", "app", "/r/app.py", 1, none⟩⟩ "c"
        ⟨"x.py", .modified, []⟩ = some ae
      ∧ ae.confidence = .low
      ∧ (⟨[("app", ["b"]), ("b", ["c"])], fun _ => none⟩ : DependencyGraph).get_shortest_path
          "app" md = some p
      ∧ ae.dependency_chain = p
      ∧ md ∈ modulesToCheck "c"
      ∧ md ∈ (⟨[("app", ["b"]), ("b", ["c"])],
          fun _ => none⟩ : DependencyGraph).get_upstream_modules "app" :=
  (claim_C8
    ⟨⟨[], []⟩, ⟨true, 0⟩, .importGraph,
      ⟨[("app", ["b"]), ("b", ["c"])], fun _ => none⟩, [], [], id⟩
    ⟨"/x", ["GET"], ⟨"h", "app", "/r/app.py", 1, none⟩⟩ "c"
    ⟨"x.py", .modified, []⟩ (by decide) (by decide)).2.1
    (by decide) rfl (by decide)
